import Mathlib

/-!
Verification of the Notion importer (`src/formats/notion.ts`).

Strings are modelled as lists of characters (`Str`), archive access as a
list of zip files each holding a list of entries, and the external storage,
progress-reporter and markup-conversion collaborators as an event trace and
an oracle environment.  Functions of the repository that are only declared
or called from `src/` (the `notion/` helpers) are modelled from the spec and
marked as such in their doc comments; everything else is translated from
`src/formats/notion.ts`.
-/

namespace NotionImport

/-- Strings of the importer are modelled as lists of characters. -/
abbrev Str := List Char

/-- Hexadecimal-digit test for the Notion id convention (lowercase hex). -/
def isHexChar (c : Char) : Bool :=
  (decide ('0' ≤ c) && decide (c ≤ '9')) || (decide ('a' ≤ c) && decide (c ≤ 'f'))

/-- Stem of a filename: everything before the last dot; the whole name when
there is no dot. -/
def stemOf (s : Str) : Str :=
  if '.' ∈ s then ((s.reverse.dropWhile (fun c => !decide (c = '.'))).drop 1).reverse
  else s

/-- Modelled from the spec: Identity Extraction (`getNotionId` of
`notion/notion-utils.ts`, not under `src/`).  Given a filename, returns the
embedded id when the filename follows the fixed-length (32 characters)
hexadecimal trailing-suffix convention immediately preceding the extension,
and nothing otherwise. -/
def getNotionId (s : Str) : Option Str :=
  let stem := stemOf s
  let idRev := stem.reverse.take 32
  if idRev.length = 32 && idRev.all isHexChar then some idRev.reverse else none

/-- Document metadata gathered by the scanner: title and optional parent id. -/
structure NotionFileInfo where
  title : Str
  parentId : Option Str
  deriving DecidableEq, Repr

/-- Attachment metadata gathered by the scanner: display name with extension,
owning document id (if any), archive byte size and, after planning, the
resolved destination folder. -/
structure NotionAttachmentInfo where
  nameWithExtension : Str
  ownerId : Option Str
  byteSize : Nat
  targetParentFolder : Str
  deriving DecidableEq, Repr

/-- One entry of a zip archive, as exposed by `readZipFiles`. -/
structure ZipEntryFile where
  filepath : Str
  name : Str
  extension : Str
  byteSize : Nat
  deriving DecidableEq, Repr

/-- One selected archive, as a collection of entries. -/
structure ZipFile where
  entries : List ZipEntryFile
  deriving DecidableEq, Repr

/-- Lookup in an association list (the model of a JS `Record`). -/
def lookupA {α : Type} (k : Str) : List (Str × α) → Option α
  | [] => none
  | x :: rest => if x.1 = k then some x.2 else lookupA k rest

/-- Insert-or-overwrite in an association list, preserving entry order. -/
def insertA {α : Type} (k : Str) (v : α) : List (Str × α) → List (Str × α)
  | [] => [(k, v)]
  | x :: rest => if x.1 = k then (x.1, v) :: rest else x :: insertA k v rest

/-- Keys of an association list. -/
def keysA {α : Type} (l : List (Str × α)) : List Str := l.map (·.1)

/-- Modelled from the spec: the ancestor walk of `assembleParentIds`
(`notion/notion-utils.ts`, not under `src/`).  Walks parent-id pointers,
maintaining the set of visited ids; it stops when the parent id is absent,
not found in the mapping, or already visited, and returns the id chain from
the root ancestor down to the immediate parent. -/
def ancestorIdChain (docs : List (Str × NotionFileInfo)) :
    Nat → List Str → Option Str → List Str
  | 0, _, _ => []
  | _ + 1, _, none => []
  | fuel + 1, visited, some pid =>
    if pid ∈ visited then []
    else
      match lookupA pid docs with
      | none => []
      | some info => ancestorIdChain docs fuel (pid :: visited) info.parentId ++ [pid]

/-- Folder segment contributed by the document with the given id: its title
followed by the path separator. -/
def segOf (docs : List (Str × NotionFileInfo)) (pid : Str) : Str :=
  (match lookupA pid docs with
   | some p => p.title
   | none => []) ++ ['/']

/-- Modelled from the spec: `assembleParentIds` (`notion/notion-utils.ts`,
not under `src/`).  Returns the ordered folder segments, root to immediate
parent, obtained from the cycle-safe ancestor walk. -/
def assembleParentIds (info : NotionFileInfo) (docs : List (Str × NotionFileInfo)) :
    List Str :=
  (ancestorIdChain docs (docs.length + 1) [] info.parentId).map (segOf docs)

/-- The markdown extension appended to every converted document. -/
def mdExt : Str := ['.', 'm', 'd']

/-- Destination path of a document, exactly as assembled at
`src/formats/notion.ts:121-124`: target folder, joined ancestor segments,
title, `.md`. -/
def docPath (target : Str) (docs : List (Str × NotionFileInfo))
    (info : NotionFileInfo) : Str :=
  target ++ (assembleParentIds info docs).flatten ++ info.title ++ mdExt

/-- Destination path of an attachment, exactly as assembled at
`src/formats/notion.ts:147-153`: target parent folder followed by the
display name with extension. -/
def attPath (a : NotionAttachmentInfo) : Str :=
  a.targetParentFolder ++ a.nameWithExtension

/-- Strip trailing spaces (used after removing the id suffix of a title). -/
def stripTrailingSpaces (s : Str) : Str :=
  (s.reverse.dropWhile (fun c => decide (c = ' '))).reverse

/-- Title of a document entry: the filename stem with the 32-character id
suffix and the separating spaces removed. -/
def titleFromName (name : Str) : Str :=
  let stem := stemOf name
  stripTrailingSpaces (stem.take (stem.length - 32))

/-- Name of the directory immediately enclosing an archive path, when the
path has a directory part. -/
def lastDirComponent (p : Str) : Option Str :=
  match p.reverse.dropWhile (fun c => !decide (c = '/')) with
  | [] => none
  | _ :: restRev => some ((restRev.takeWhile (fun c => !decide (c = '/'))).reverse)

/-- Parent/owner id of an entry: the Notion id embedded in the name of the
directory that encloses it in the archive. -/
def parentIdOf (p : Str) : Option Str :=
  (lastDirComponent p).bind getNotionId

/-- State built up by the metadata pass: the two mappings and the archive
paths reported as skipped. -/
structure ScanState where
  ids : List (Str × NotionFileInfo)
  atts : List (Str × NotionAttachmentInfo)
  skipped : List Str
  deriving DecidableEq, Repr

/-- The `html` extension, which marks document entries. -/
def htmlExt : Str := ['h', 't', 'm', 'l']

/-- Modelled from the spec: `parseFileInfo` (`notion/parse-info.ts`, not
under `src/`).  Reads path/title/parent metadata of one entry and inserts it
into the appropriate mapping; a document entry whose id cannot be extracted
is a caught failure, which `import` reports as skipped
(`src/formats/notion.ts:58-60`). -/
def parseFileInfo (file : ZipEntryFile) (st : ScanState) : ScanState :=
  if file.extension = htmlExt then
    match getNotionId file.name with
    | none => { st with skipped := st.skipped ++ [file.filepath] }
    | some id =>
        { st with
            ids := insertA id ⟨titleFromName file.name, parentIdOf file.filepath⟩ st.ids }
  else
    { st with
        atts := insertA file.filepath
          ⟨file.name, parentIdOf file.filepath, file.byteSize, []⟩ st.atts }

/-- Translated from `src/formats/notion.ts:164`: a database export is a
`.csv` entry whose filepath yields a Notion id. -/
def isDatabaseCSV (filename : Str) : Bool :=
  ['.', 'c', 's', 'v'].isSuffixOf filename && (getNotionId filename).isSome

/-- Every entry of every selected archive, in archive-iteration order. -/
def allEntries (files : List ZipFile) : List ZipEntryFile :=
  (files.map ZipFile.entries).flatten

/-- Translated from `processZips` (`src/formats/notion.ts:166-177`): the
entries on which the per-entry callback is invoked, in order — every entry
that is not a database CSV. -/
def processedEntries (files : List ZipFile) : List ZipEntryFile :=
  (allEntries files).filter (fun f => !isDatabaseCSV f.filepath)

/-- Pass 1 of `import` (`src/formats/notion.ts:50-61`): run the parser over
every processed entry, collecting the two mappings and the skip reports. -/
def scanResult (files : List ZipFile) : ScanState :=
  (processedEntries files).foldl (fun st f => parseFileInfo f st) ⟨[], [], []⟩

/-! ### Duplicate resolution and path planning

`cleanDuplicates` (`notion/clean-duplicates.ts`) is not under `src/`; the
phases below are modelled from the spec: collapse duplicate attachments to
the larger entry, disambiguate colliding document titles with id suffixes,
compute each retained attachment's destination folder from the layout
policy, and make every planned destination path collision-free. -/

/-- Arguments of `cleanDuplicates`, as passed at `src/formats/notion.ts:67-74`. -/
structure CleanArgs where
  attachmentFolderPath : Str
  targetFolderPath : Str
  parentsInSubfolders : Bool
  deriving DecidableEq, Repr

/-- Does the mapping hold a second document, under a different id, with the
same title? -/
def dupTitle (ids : List (Str × NotionFileInfo)) (k : Str) (t : Str) : Bool :=
  ids.any (fun kv => !decide (kv.1 = k) && decide (kv.2.title = t))

/-- Rewrite applied to one document in a disambiguation round: a colliding
title gets the document's own id appended. -/
def roundFun (ids : List (Str × NotionFileInfo)) (kv : Str × NotionFileInfo) :
    Str × NotionFileInfo :=
  if dupTitle ids kv.1 kv.2.title then
    (kv.1, { kv.2 with title := kv.2.title ++ ' ' :: kv.1 })
  else kv

/-- One disambiguation round: every document whose title collides with
another document's title gets its own id appended to the title. -/
def roundTitles (ids : List (Str × NotionFileInfo)) : List (Str × NotionFileInfo) :=
  ids.map (roundFun ids)

/-- Is some document title duplicated in the mapping? -/
def hasTitleCollision (ids : List (Str × NotionFileInfo)) : Bool :=
  ids.any (fun kv => dupTitle ids kv.1 kv.2.title)

/-- Modelled from the spec: title disambiguation of the Path Planner
("disambiguating via id suffixes when titles collide").  Rounds are repeated
until no two distinct documents share a title. -/
def disambiguateTitles : Nat → List (Str × NotionFileInfo) → List (Str × NotionFileInfo)
  | 0, ids => ids
  | fuel + 1, ids =>
    if hasTitleCollision ids then disambiguateTitles fuel (roundTitles ids) else ids

/-- The document mapping after duplicate resolution. -/
def cleanIds (ids : List (Str × NotionFileInfo)) : List (Str × NotionFileInfo) :=
  disambiguateTitles (ids.length + 1) ids

/-- Two attachments are duplicates when they are owned by the same document
and carry the same display name. -/
def sameAttGroup (a b : NotionAttachmentInfo) : Bool :=
  decide (a.ownerId = b.ownerId) && decide (a.nameWithExtension = b.nameWithExtension)

/-- Fold step of attachment deduplication: a new entry replaces an existing
duplicate when it is strictly larger, is dropped when it is not, and is
appended when it duplicates nothing. -/
def dedupStep (acc : List (Str × NotionAttachmentInfo)) (e : Str × NotionAttachmentInfo) :
    List (Str × NotionAttachmentInfo) :=
  if acc.any (fun x => sameAttGroup x.2 e.2) then
    acc.map (fun x =>
      if sameAttGroup x.2 e.2 && decide (x.2.byteSize < e.2.byteSize) then e else x)
  else acc ++ [e]

/-- Modelled from the spec: attachment duplicate resolution — entries of the
same logical attachment (same owner, same display name) are collapsed to the
byte-wise larger one. -/
def dedupAttachments (atts : List (Str × NotionAttachmentInfo)) :
    List (Str × NotionAttachmentInfo) :=
  atts.foldl dedupStep []

/-- Modelled from the spec: destination folder determined by an owning
document — the owning document's folder when `parentsInSubfolders` is on
(falling back to the target root for orphans and dangling owners), else the
target root, followed by the vault's attachment-subfolder convention. -/
def folderFor (args : CleanArgs) (ids : List (Str × NotionFileInfo))
    (o : Option Str) : Str :=
  (if args.parentsInSubfolders then
    match o with
    | some oid =>
      match lookupA oid ids with
      | some oinfo =>
        args.targetFolderPath ++ (assembleParentIds oinfo ids).flatten ++
          oinfo.title ++ ['/']
      | none => args.targetFolderPath
    | none => args.targetFolderPath
  else args.targetFolderPath) ++
    (if args.attachmentFolderPath.isEmpty then []
     else args.attachmentFolderPath ++ ['/'])

/-- Modelled from the spec: record the attachment's destination folder. -/
def assignFolder (args : CleanArgs) (ids : List (Str × NotionFileInfo))
    (a : NotionAttachmentInfo) : NotionAttachmentInfo :=
  { a with targetParentFolder := folderFor args ids a.ownerId }

/-- Planned destination paths of all documents. -/
def docPathsList (target : Str) (ids : List (Str × NotionFileInfo)) : List Str :=
  ids.map (fun kv => docPath target ids kv.2)

/-- Disambiguated display name: the k-th candidate appends a parenthesised
tally to the name. -/
def candName (name : Str) : Nat → Str
  | 0 => name
  | k + 1 => name ++ ' ' :: '(' :: (List.replicate (k + 1) 'i' ++ [')'])

/-- Length of the longest string in a list. -/
def maxLen (l : List Str) : Nat :=
  l.foldr (fun s m => max s.length m) 0

/-- Search for the first candidate index whose full path is not yet used. -/
def firstFreeAux (used : List Str) (folder name : Str) : Nat → Nat → Nat
  | 0, k => k
  | fuel + 1, k =>
    if (folder ++ candName name k) ∈ used then firstFreeAux used folder name fuel (k + 1)
    else k

/-- First candidate index giving an unused path; the fuel bound suffices
because candidate paths grow beyond every used path. -/
def firstFree (used : List Str) (folder name : Str) : Nat :=
  firstFreeAux used folder name (maxLen used + 2) 0

/-- Disambiguation of one display name against the set of paths already
assigned. -/
def uniqStep (used : List Str) (a : NotionAttachmentInfo) : NotionAttachmentInfo :=
  { a with
      nameWithExtension :=
        candName a.nameWithExtension
          (firstFree used a.targetParentFolder a.nameWithExtension) }

/-- Modelled from the spec: collision-freedom of the Path Planner.  Walk the
attachments in order, keeping the set of already-assigned destination paths
(seeded with every document path), and disambiguate any colliding display
name. -/
def uniquifyAux (used : List Str) :
    List (Str × NotionAttachmentInfo) → List (Str × NotionAttachmentInfo)
  | [] => []
  | (p, a) :: rest =>
    (p, uniqStep used a) :: uniquifyAux (attPath (uniqStep used a) :: used) rest

/-- Attachment mapping with collision-free destination paths. -/
def uniquifyNames (docPaths : List Str) (atts : List (Str × NotionAttachmentInfo)) :
    List (Str × NotionAttachmentInfo) :=
  uniquifyAux docPaths atts

/-- Modelled from the spec: `cleanDuplicates` (`notion/clean-duplicates.ts`,
not under `src/`), called at `src/formats/notion.ts:67-74` — duplicate
resolution over both mappings together with the folder computation folded
into this phase. -/
def cleanDuplicates (args : CleanArgs) (ids : List (Str × NotionFileInfo))
    (atts : List (Str × NotionAttachmentInfo)) :
    List (Str × NotionFileInfo) × List (Str × NotionAttachmentInfo) :=
  let ids1 := cleanIds ids
  let atts1 := dedupAttachments atts
  let atts2 := atts1.map (fun pa => (pa.1, assignFolder args ids1 pa.2))
  let atts3 := uniquifyNames (docPathsList args.targetFolderPath ids1) atts2
  (ids1, atts3)

/-- The attachment mapping produced by `cleanDuplicates`. -/
def cleanedAtts (args : CleanArgs) (ids : List (Str × NotionFileInfo))
    (atts : List (Str × NotionAttachmentInfo)) :
    List (Str × NotionAttachmentInfo) :=
  uniquifyNames (docPathsList args.targetFolderPath (cleanIds ids))
    ((dedupAttachments atts).map
      (fun pa => (pa.1, assignFolder args (cleanIds ids) pa.2)))

/-! ### The import driver

`import` (`src/formats/notion.ts:27-161`) is embedded as a trace-producing
function.  The external collaborators — storage capability, progress
reporter, user notices, markup conversion — are represented by the `Event`
trace and the oracle `Env`; `normalizePath` of the host application is the
identity in this model. -/

/-- Observable actions of one import run, in order. -/
inductive Event where
  | notice (msg : Str)
  | reportSkipped (path : Str)
  | reportProgress (current total : Nat)
  | reportNoteSuccess (path : Str)
  | reportAttachmentSuccess (path : Str)
  | reportFailed (path : Str) (err : Str)
  | createFolder (path : Str)
  | writeNote (path : Str) (body : Str)
  | editFrontMatter (path : Str)
  | writeBinary (path : Str)
  deriving DecidableEq, Repr

/-- Result of the external markup conversion (`readToMarkdown`). -/
structure ConvertOutput where
  markdownBody : Str
  properties : List (Str × Str)
  deriving DecidableEq, Repr

/-- Oracle for the external collaborators: the conversion transform and the
success of the storage capability's write operations. -/
structure Env where
  convert : ZipEntryFile → Except Str ConvertOutput
  createOk : Str → Bool
  writeBinOk : Str → Bool

/-- Body of the Pass-2 `try` block for one entry
(`src/formats/notion.ts:101-155`): the events it performs and, when it
throws, the error.  Document entries (`html` extension) are converted and
written to their planned path; every other entry is looked up as an
attachment by its archive filepath and copied. -/
def tryProcessEntry (env : Env) (target : Str) (ids : List (Str × NotionFileInfo))
    (atts : List (Str × NotionAttachmentInfo)) (e : ZipEntryFile) :
    List Event × Option Str :=
  if e.extension = htmlExt then
    match getNotionId e.name with
    | none => ([], some ("ids not found for ".data ++ e.filepath))
    | some id =>
      match lookupA id ids with
      | none => ([], some ("file info not found for ".data ++ e.filepath))
      | some fileInfo =>
        match env.convert e with
        | .error err => ([], some err)
        | .ok out =>
          let path := docPath target ids fileInfo
          if env.createOk path then
            (if out.properties.isEmpty then
              [Event.writeNote path out.markdownBody,
                Event.reportNoteSuccess e.filepath]
            else
              [Event.writeNote path out.markdownBody, Event.editFrontMatter path,
                Event.reportNoteSuccess e.filepath], none)
          else ([], some "write failed".data)
  else
    match lookupA e.filepath atts with
    | none => ([], some ("attachment info not found for ".data ++ e.filepath))
    | some a =>
      if env.writeBinOk (attPath a) then
        ([Event.writeBinary (attPath a), Event.reportAttachmentSuccess e.filepath], none)
      else ([], some "write failed".data)

/-- Events of one Pass-2 entry (`src/formats/notion.ts:97-160`): bump the
counter and report progress, then run the `try` block, turning a thrown
error into a single `reportFailed` for the entry's path. -/
def entryBlock (env : Env) (target : Str) (ids : List (Str × NotionFileInfo))
    (atts : List (Str × NotionAttachmentInfo)) (total : Nat) (idx : Nat)
    (e : ZipEntryFile) : List Event :=
  let r := tryProcessEntry env target ids atts e
  Event.reportProgress (idx + 1) total ::
    (r.1 ++ (match r.2 with
             | some err => [Event.reportFailed e.filepath err]
             | none => []))

/-- The whole Pass-2 trace: the blocks of every processed entry, in order. -/
def pass2Trace (env : Env) (target : Str) (ids : List (Str × NotionFileInfo))
    (atts : List (Str × NotionAttachmentInfo)) (total : Nat) (files : List ZipFile) :
    List Event :=
  ((processedEntries files).enum.map
    (fun ie => entryBlock env target ids atts total ie.1 ie.2)).flatten

/-- Test that a path already carries the trailing separator. -/
def endsSlashB (p : Str) : Bool :=
  match p.reverse with
  | c :: _ => decide (c = '/')
  | [] => false

/-- Conventional form of the target folder path
(`src/formats/notion.ts:40-43`): a trailing `/` is appended when missing. -/
def ensureSlash (p : Str) : Str :=
  if endsSlashB p then p else p ++ ['/']

/-- User-selected import configuration. -/
structure ImportConfig where
  files : List ZipFile
  outputFolder : Option Str
  parentsInSubfolders : Bool
  attachmentFolderPath : Str

/-- Normalized target folder path of a run. -/
def targetOf (f : Str) : Str := ensureSlash f

/-- The argument record passed to `cleanDuplicates`. -/
def cleanArgsOf (cfg : ImportConfig) (f : Str) : CleanArgs :=
  ⟨cfg.attachmentFolderPath, targetOf f, cfg.parentsInSubfolders⟩

/-- Both mappings after Pass 1: scanned, then cleaned. -/
def plannedOf (cfg : ImportConfig) (f : Str) :
    List (Str × NotionFileInfo) × List (Str × NotionAttachmentInfo) :=
  cleanDuplicates (cleanArgsOf cfg f) (scanResult cfg.files).ids (scanResult cfg.files).atts

/-- The progress denominator (`src/formats/notion.ts:63-65`): notes plus
attachments, counted after scanning and before duplicate resolution. -/
def totalOf (cfg : ImportConfig) : Nat :=
  (scanResult cfg.files).ids.length + (scanResult cfg.files).atts.length

/-- Insertion into the model of a JS `Set`, keeping first-insertion order. -/
def setInsert (s : List Str) (x : Str) : List Str :=
  if x ∈ s then s else s ++ [x]

/-- Folder path implied by a document: target folder plus its joined
ancestor segments (`src/formats/notion.ts:77-80`). -/
def docFolderPathsList (target : Str) (ids : List (Str × NotionFileInfo)) : List Str :=
  ids.map (fun kv => target ++ (assembleParentIds kv.2 ids).flatten)

/-- The `flatFolderPaths` set (`src/formats/notion.ts:76-88`): the target
folder plus every document folder and every attachment parent folder. -/
def flatFolderPaths (target : Str) (ids : List (Str × NotionFileInfo))
    (atts : List (Str × NotionAttachmentInfo)) : List Str :=
  ((docFolderPathsList target ids) ++
      atts.map (fun pa => pa.2.targetParentFolder)).foldl setInsert [target]

/-- Notice shown when no file was picked (`src/formats/notion.ts:30`). -/
def noticePick : Str := "Please pick at least one file to import.".data

/-- Notice shown when no output folder resolves (`src/formats/notion.ts:36`). -/
def noticeSelect : Str := "Please select a location to export to.".data

/-- Translated from `import` (`src/formats/notion.ts:27-161`): pre-flight
checks, the metadata pass with its skip reports, duplicate resolution and
path planning, folder creation, and the content pass. -/
def runImport (env : Env) (cfg : ImportConfig) : List Event :=
  if cfg.files.isEmpty then [Event.notice noticePick]
  else
    match cfg.outputFolder with
    | none => [Event.notice noticeSelect]
    | some f =>
      ((scanResult cfg.files).skipped.map Event.reportSkipped)
        ++ (flatFolderPaths (targetOf f) (plannedOf cfg f).1 (plannedOf cfg f).2).map
            Event.createFolder
        ++ pass2Trace env (targetOf f) (plannedOf cfg f).1 (plannedOf cfg f).2
            (totalOf cfg) cfg.files

/-- All destination paths assigned by the planner in one run. -/
def plannedPathsList (cfg : ImportConfig) (f : Str) : List Str :=
  docPathsList (targetOf f) (plannedOf cfg f).1 ++
    (plannedOf cfg f).2.map (fun pa => attPath pa.2)

/-- Parent folder of a destination path: everything up to and including the
last separator. -/
def parentDir (p : Str) : Str :=
  (p.reverse.dropWhile (fun c => !decide (c = '/'))).reverse

/-- Parent folders of all destination paths assigned by the planner. -/
def plannedParentDirs (cfg : ImportConfig) (f : Str) : List Str :=
  (plannedPathsList cfg f).map parentDir

/-- Events that write file content to the storage capability. -/
def isWriteEvent : Event → Bool
  | .writeNote _ _ => true
  | .editFrontMatter _ => true
  | .writeBinary _ => true
  | _ => false

/-- Folder-creation events. -/
def isCreateEvent : Event → Bool
  | .createFolder _ => true
  | _ => false

/-- Events that can be emitted by the Pass-2 `try` block. -/
def isPass2Content : Event → Bool
  | .writeNote _ _ => true
  | .editFrontMatter _ => true
  | .reportNoteSuccess _ => true
  | .writeBinary _ => true
  | .reportAttachmentSuccess _ => true
  | _ => false

/-- Failure reports. -/
def isFailedEvent : Event → Bool
  | .reportFailed _ _ => true
  | _ => false

/-- Progress reports. -/
def isProgressEvent : Event → Bool
  | .reportProgress _ _ => true
  | _ => false

/-- The folder paths passed to `createFolders`, in trace order. -/
def createdFolders (tr : List Event) : List Str :=
  tr.filterMap (fun e =>
    match e with
    | .createFolder p => some p
    | _ => none)

/-- Pass-1 segment of the run's trace: the skip reports. -/
def scanTrace (cfg : ImportConfig) : List Event :=
  (scanResult cfg.files).skipped.map Event.reportSkipped

/-- Folder-creation segment of the run's trace. -/
def folderTrace (cfg : ImportConfig) (f : Str) : List Event :=
  (flatFolderPaths (targetOf f) (plannedOf cfg f).1 (plannedOf cfg f).2).map
    Event.createFolder

/-- Pass-2 segment of the run's trace. -/
def pass2TraceOf (env : Env) (cfg : ImportConfig) (f : Str) : List Event :=
  pass2Trace env (targetOf f) (plannedOf cfg f).1 (plannedOf cfg f).2
    (totalOf cfg) cfg.files

/-- A well-formed archive: entry display names are single path components,
so they contain no separator. -/
def WellFormedCfg (cfg : ImportConfig) : Prop :=
  ∀ z ∈ cfg.files, ∀ e ∈ z.entries, '/' ∉ e.name

/-- A path that carries the trailing folder separator. -/
def EndsSlash (p : Str) : Prop := ∃ q, p = q ++ ['/']

/-! ### Concrete archives used to exercise the model -/

/-- A root document entry. -/
def wEntryRoot : ZipEntryFile :=
  ⟨"Root 00000000000000000000000000000001.html".data,
   "Root 00000000000000000000000000000001.html".data, "html".data, 10⟩

/-- A child document entry nested under the root document's folder. -/
def wEntryChild : ZipEntryFile :=
  ⟨"Root 00000000000000000000000000000001/Child 00000000000000000000000000000002.html".data,
   "Child 00000000000000000000000000000002.html".data, "html".data, 5⟩

/-- An attachment entry owned by the root document. -/
def wEntryImg : ZipEntryFile :=
  ⟨"Root 00000000000000000000000000000001/img.png".data, "img.png".data,
   "png".data, 7⟩

/-- A second entry carrying the same Notion id as the root document. -/
def wEntryCopy : ZipEntryFile :=
  ⟨"Copy 00000000000000000000000000000001.html".data,
   "Copy 00000000000000000000000000000001.html".data, "html".data, 3⟩

/-- A document entry whose filename yields no extractable id. -/
def wEntryBadHtml : ZipEntryFile :=
  ⟨"nohex.html".data, "nohex.html".data, "html".data, 1⟩

/-- A run over the root/child/attachment archive. -/
def wCfg : ImportConfig :=
  ⟨[⟨[wEntryRoot, wEntryChild, wEntryImg]⟩], some "Notion".data, false, []⟩

/-- A run whose single archive has no entries. -/
def wCfgEmptyZip : ImportConfig := ⟨[⟨[]⟩], some "Notion".data, false, []⟩

/-- A run with no selected files. -/
def wCfgNoFiles : ImportConfig := ⟨[], some "Notion".data, false, []⟩

/-- A run whose two entries resolve to one document id. -/
def wCfgDup : ImportConfig :=
  ⟨[⟨[wEntryRoot, wEntryCopy]⟩], some "Notion".data, false, []⟩

/-- An environment whose conversion and writes always succeed. -/
def wEnv : Env := ⟨fun _ => .ok ⟨"B!".data, []⟩, fun _ => true, fun _ => true⟩

/-- An environment whose conversion throws on the child document. -/
def wEnvFail : Env :=
  ⟨fun e => if e.name = wEntryChild.name then .error "conversion failed".data
    else .ok ⟨"B!".data, []⟩, fun _ => true, fun _ => true⟩

/-- Document A of a two-document parent cycle. -/
def wInfoA : NotionFileInfo := ⟨"A".data, some "kb".data⟩

/-- Document B of a two-document parent cycle. -/
def wInfoB : NotionFileInfo := ⟨"B".data, some "ka".data⟩

/-- A document mapping whose parent pointers form the cycle A→B→A. -/
def wCycDocs : List (Str × NotionFileInfo) := [("ka".data, wInfoA), ("kb".data, wInfoB)]

/-- Shape of every key of the document mapping: a 32-character hexadecimal
Notion id. -/
def IdKeyShape (k : Str) : Prop := k.length = 32 ∧ ∀ c ∈ k, isHexChar c = true

/-- Invariant of the document mapping along the run. -/
def IdsInv (ids : List (Str × NotionFileInfo)) : Prop :=
  (keysA ids).Nodup ∧ (∀ k ∈ keysA ids, IdKeyShape k) ∧ ∀ kv ∈ ids, '/' ∉ kv.2.title

/-- Invariant of the attachment mapping along the run. -/
def AttsInv (atts : List (Str × NotionAttachmentInfo)) : Prop :=
  ∀ kv ∈ atts, '/' ∉ kv.2.nameWithExtension

/-- A document entry whose title already ends with its own id suffix. -/
def Marked (kv : Str × NotionFileInfo) : Prop :=
  ∃ q, kv.2.title = q ++ ' ' :: kv.1

/-- Computable test for `Marked`. -/
def markedB (kv : Str × NotionFileInfo) : Bool :=
  decide (kv.2.title.reverse.take (kv.1.length + 1) = (' ' :: kv.1).reverse)

/-- Count of documents not yet carrying their id suffix. -/
def unmarkedCount (ids : List (Str × NotionFileInfo)) : Nat :=
  ids.countP (fun kv => !markedB kv)

/-- Canonical identity of a logical attachment: owner and display name. -/
def gKey (a : NotionAttachmentInfo) : Option Str × Str :=
  (a.ownerId, a.nameWithExtension)

/-- Mapping with two colliding titles used to exercise duplicate
resolution. -/
def wDupIds : List (Str × NotionFileInfo) :=
  [("00000000000000000000000000000001".data, ⟨"T".data, none⟩),
   ("00000000000000000000000000000002".data, ⟨"T".data, none⟩)]

/-- Attachment mapping used to exercise duplicate resolution. -/
def wDupAtts : List (Str × NotionAttachmentInfo) :=
  [("a/img.png".data, ⟨"img.png".data, none, 5, []⟩),
   ("b/img.png".data, ⟨"img.png".data, none, 9, []⟩)]

/-- Arguments used to exercise duplicate resolution. -/
def wArgs : CleanArgs := ⟨[], "Notion/".data, false⟩

/-! ### Generic helpers -/

theorem ends_slash_append {a b : Str} (h : EndsSlash b) : EndsSlash (a ++ b) := by
  obtain ⟨q, rfl⟩ := h
  exact ⟨a ++ q, by simp⟩

theorem ends_slash_append_left {a b : Str} (h : EndsSlash a) (hb : b = []) :
    EndsSlash (a ++ b) := by
  subst hb; simpa using h

/-- Splitting a separator-terminated prefix from a separator-free tail is
unambiguous (stated on reversed lists). -/
theorem split_core :
    ∀ (A1 A2 q1 q2 : Str), A1 ++ '/' :: q1 = A2 ++ '/' :: q2 →
      '/' ∉ A1 → '/' ∉ A2 → A1 = A2 ∧ q1 = q2 := by
  intro A1
  induction A1 with
  | nil =>
    intro A2 q1 q2 h h1 h2
    cases A2 with
    | nil => simpa using h
    | cons c A2' =>
      exfalso
      have : '/' = c := by simpa using congrArg (fun l => l.head?) h
      exact h2 (by simp [this.symm])
  | cons c A1' ih =>
    intro A2 q1 q2 h h1 h2
    cases A2 with
    | nil =>
      exfalso
      have : c = '/' := by simpa using congrArg (fun l => l.head?) h
      exact h1 (by simp [this])
    | cons d A2' =>
      have hcd : c = d := by simpa using congrArg (fun l => l.head?) h
      subst hcd
      have htl : A1' ++ '/' :: q1 = A2' ++ '/' :: q2 := by simpa using h
      have h1' : '/' ∉ A1' := fun hx => h1 (List.mem_cons_of_mem _ hx)
      have h2' : '/' ∉ A2' := fun hx => h2 (List.mem_cons_of_mem _ hx)
      obtain ⟨hA, hq⟩ := ih A2' q1 q2 htl h1' h2'
      exact ⟨by rw [hA], hq⟩

/-- A destination path determines its folder part and its separator-free
final component. -/
theorem split_path {F1 F2 N1 N2 : Str} (h : F1 ++ N1 = F2 ++ N2)
    (e1 : EndsSlash F1) (e2 : EndsSlash F2) (n1 : '/' ∉ N1) (n2 : '/' ∉ N2) :
    F1 = F2 ∧ N1 = N2 := by
  obtain ⟨p1, rfl⟩ := e1
  obtain ⟨p2, rfl⟩ := e2
  have hrev : N1.reverse ++ '/' :: p1.reverse = N2.reverse ++ '/' :: p2.reverse := by
    have := congrArg List.reverse h
    simpa using this
  have hn1 : '/' ∉ N1.reverse := by simpa using n1
  have hn2 : '/' ∉ N2.reverse := by simpa using n2
  obtain ⟨hN, hp⟩ := split_core _ _ _ _ hrev hn1 hn2
  have hN' : N1 = N2 := by
    have := congrArg List.reverse hN; simpa using this
  have hp' : p1 = p2 := by
    have := congrArg List.reverse hp; simpa using this
  exact ⟨by rw [hp'], hN'⟩

theorem dropWhile_append_of_all (p : Char → Bool) {a b : Str}
    (h : ∀ x ∈ a, p x = true) : (a ++ b).dropWhile p = b.dropWhile p := by
  induction a with
  | nil => simp
  | cons c a' ih =>
    have hc : p c = true := h c (by simp)
    simp only [List.cons_append, List.dropWhile_cons, hc, if_true]
    exact ih (fun x hx => h x (by simp [hx]))

/-- Computing the parent folder of `F ++ N` recovers `F` when `F` ends with
the separator and `N` is separator-free. -/
theorem parentDir_append {F N : Str} (e : EndsSlash F) (n : '/' ∉ N) :
    parentDir (F ++ N) = F := by
  obtain ⟨q, rfl⟩ := e
  unfold parentDir
  have hrev : ((q ++ ['/']) ++ N).reverse = N.reverse ++ '/' :: q.reverse := by
    simp
  rw [hrev]
  rw [dropWhile_append_of_all (fun c => !decide (c = '/'))
    (fun x hx => by
      have : x ≠ '/' := fun hh => n (by simpa [hh] using (List.mem_reverse.mp hx))
      simp [this])]
  simp [List.dropWhile_cons]

theorem nodup_map_of_injOn {α β : Type} {l : List α} {f : α → β}
    (hl : l.Nodup) (hf : ∀ a ∈ l, ∀ b ∈ l, f a = f b → a = b) :
    (l.map f).Nodup := by
  induction l with
  | nil => simp
  | cons x xs ih =>
    simp only [List.map_cons, List.nodup_cons] at *
    refine ⟨?_, ih hl.2 (fun a ha b hb h => hf a (by simp [ha]) b (by simp [hb]) h)⟩
    intro hmem
    obtain ⟨b, hb, hfb⟩ := List.mem_map.mp hmem
    exact hl.1 (hf x (by simp) b (by simp [hb]) hfb.symm ▸ hb)

theorem pairwise_imp_mem {α : Type} {R S : α → α → Prop} {l : List α}
    (h : ∀ a ∈ l, ∀ b ∈ l, R a b → S a b) (hp : l.Pairwise R) : l.Pairwise S := by
  induction l with
  | nil => simp
  | cons x xs ih =>
    rcases List.pairwise_cons.mp hp with ⟨hx, hxs⟩
    refine List.pairwise_cons.mpr ⟨?_, ih (fun a ha b hb => h a (by simp [ha]) b (by simp [hb])) hxs⟩
    intro b hb
    exact h x (by simp) b (by simp [hb]) (hx b hb)

theorem mem_foldl_setInsert (L : List Str) :
    ∀ (acc : List Str) (p : Str), p ∈ L.foldl setInsert acc ↔ p ∈ acc ∨ p ∈ L := by
  induction L with
  | nil => intro acc p; simp
  | cons x xs ih =>
    intro acc p
    simp only [List.foldl_cons]
    rw [ih]
    unfold setInsert
    by_cases hx : x ∈ acc
    · simp only [if_pos hx]
      constructor
      · rintro (h | h)
        · exact Or.inl h
        · exact Or.inr (by simp [h])
      · rintro (h | h)
        · exact Or.inl h
        · rcases List.mem_cons.mp h with h | h
          · exact Or.inl (h ▸ hx)
          · exact Or.inr h
    · simp only [if_neg hx]
      constructor
      · rintro (h | h)
        · rcases List.mem_append.mp h with h | h
          · exact Or.inl h
          · exact Or.inr (by simp at h; simp [h])
        · exact Or.inr (by simp [h])
      · rintro (h | h)
        · exact Or.inl (List.mem_append.mpr (Or.inl h))
        · rcases List.mem_cons.mp h with h | h
          · exact Or.inl (List.mem_append.mpr (Or.inr (by simp [h])))
          · exact Or.inr h

theorem le_maxLen {l : List Str} {s : Str} (h : s ∈ l) : s.length ≤ maxLen l := by
  induction l with
  | nil => cases h
  | cons x xs ih =>
    rcases List.mem_cons.mp h with h | h
    · subst h; exact le_max_left _ _
    · exact le_trans (ih h) (le_max_right _ _)

theorem map_eq_self {α : Type} {l : List α} {f : α → α}
    (h : ∀ x ∈ l, f x = x) : l.map f = l := by
  induction l with
  | nil => rfl
  | cons x xs ih =>
    simp only [List.map_cons]
    rw [h x (by simp), ih (fun y hy => h y (by simp [hy]))]

/-! ### Scanner invariants -/

theorem getNotionId_shape {s id : Str} (h : getNotionId s = some id) : IdKeyShape id := by
  simp only [getNotionId] at h
  split at h
  · next hc =>
    obtain ⟨h1, h2⟩ := (Bool.and_eq_true _ _).mp hc
    have hlen : ((stemOf s).reverse.take 32).length = 32 := of_decide_eq_true h1
    have hid : id = ((stemOf s).reverse.take 32).reverse := by
      simpa using h.symm
    subst hid
    constructor
    · simpa using hlen
    · intro c hcmem
      exact List.all_eq_true.mp h2 c (List.mem_reverse.mp hcmem)
  · simp at h

theorem mem_stemOf {c : Char} {s : Str} (h : c ∈ stemOf s) : c ∈ s := by
  unfold stemOf at h
  split at h
  · have h1 := List.mem_reverse.mp h
    have h2 : c ∈ s.reverse.dropWhile (fun c => !decide (c = '.')) :=
      (List.drop_sublist _ _).mem h1
    exact List.mem_reverse.mp ((List.dropWhile_sublist _).mem h2)
  · exact h

theorem mem_titleFromName {c : Char} {s : Str} (h : c ∈ titleFromName s) : c ∈ s := by
  unfold titleFromName stripTrailingSpaces at h
  have h1 := List.mem_reverse.mp h
  have h2 := List.mem_reverse.mp ((List.dropWhile_sublist _).mem h1)
  exact mem_stemOf ((List.take_sublist _ _).mem h2)

theorem mem_insertA {α : Type} {k : Str} {v : α} {l : List (Str × α)} {kv : Str × α}
    (h : kv ∈ insertA k v l) : kv ∈ l ∨ kv = (k, v) := by
  induction l with
  | nil => exact Or.inr (by simpa [insertA] using h)
  | cons x xs ih =>
    unfold insertA at h
    split at h
    · next he =>
      rcases List.mem_cons.mp h with h | h
      · exact Or.inr (by rw [h, he])
      · exact Or.inl (List.mem_cons_of_mem _ h)
    · rcases List.mem_cons.mp h with h | h
      · exact Or.inl (by simp [h])
      · rcases ih h with h | h
        · exact Or.inl (List.mem_cons_of_mem _ h)
        · exact Or.inr h

theorem keysA_insertA_subset {α : Type} {k : Str} {v : α} {l : List (Str × α)} {x : Str}
    (h : x ∈ keysA (insertA k v l)) : x ∈ keysA l ∨ x = k := by
  obtain ⟨kv, hkv, hx⟩ := List.mem_map.mp h
  rcases mem_insertA hkv with h | h
  · exact Or.inl (hx ▸ List.mem_map.mpr ⟨kv, h, rfl⟩)
  · exact Or.inr (by rw [← hx, h])

theorem keysA_insertA_nodup {α : Type} {k : Str} {v : α} {l : List (Str × α)}
    (h : (keysA l).Nodup) : (keysA (insertA k v l)).Nodup := by
  induction l with
  | nil => simp [insertA, keysA]
  | cons x xs ih =>
    unfold insertA
    split
    · exact h
    · next hne =>
      have h' : (keysA xs).Nodup ∧ x.1 ∉ keysA xs := by
        have := h
        simp only [keysA, List.map_cons, List.nodup_cons] at this
        exact ⟨this.2, this.1⟩
      simp only [keysA, List.map_cons, List.nodup_cons]
      refine ⟨?_, ih h'.1⟩
      intro hmem
      rcases keysA_insertA_subset hmem with hmem | hmem
      · exact h'.2 hmem
      · exact hne hmem

theorem lookupA_mem {α : Type} {k : Str} {v : α} {l : List (Str × α)}
    (h : lookupA k l = some v) : (k, v) ∈ l := by
  induction l with
  | nil => simp [lookupA] at h
  | cons x xs ih =>
    unfold lookupA at h
    split at h
    · next he => simp only [Option.some.injEq] at h; simp [← he, ← h]
    · exact List.mem_cons_of_mem _ (ih h)

theorem keys_nodup_unique {α : Type} {l : List (Str × α)} {k : Str} {v1 v2 : α}
    (hn : (keysA l).Nodup) (h1 : (k, v1) ∈ l) (h2 : (k, v2) ∈ l) : v1 = v2 := by
  induction l with
  | nil => cases h1
  | cons x xs ih =>
    simp only [keysA, List.map_cons, List.nodup_cons] at hn
    rcases List.mem_cons.mp h1 with h1 | h1 <;> rcases List.mem_cons.mp h2 with h2 | h2
    · exact congrArg Prod.snd (h1.trans h2.symm)
    · exfalso
      exact hn.1 (List.mem_map.mpr ⟨(k, v2), h2, by rw [← h1]⟩)
    · exfalso
      exact hn.1 (List.mem_map.mpr ⟨(k, v1), h1, by rw [← h2]⟩)
    · exact ih hn.2 h1 h2

theorem parseFileInfo_inv {e : ZipEntryFile} {st : ScanState}
    (hi : IdsInv st.ids) (ha : AttsInv st.atts) (hn : '/' ∉ e.name) :
    IdsInv (parseFileInfo e st).ids ∧ AttsInv (parseFileInfo e st).atts := by
  by_cases hext : e.extension = htmlExt
  · cases hgid : getNotionId e.name with
    | none =>
      simp only [parseFileInfo, hext, hgid, if_true]
      exact ⟨hi, ha⟩
    | some id =>
      simp only [parseFileInfo, hext, hgid, if_true]
      refine ⟨⟨keysA_insertA_nodup hi.1, ?_, ?_⟩, ha⟩
      · intro k hk
        rcases keysA_insertA_subset hk with hk | hk
        · exact hi.2.1 k hk
        · exact hk ▸ getNotionId_shape hgid
      · intro kv hkv
        rcases mem_insertA hkv with hkv | hkv
        · exact hi.2.2 kv hkv
        · rw [hkv]
          exact fun hc => hn (mem_titleFromName hc)
  · simp only [parseFileInfo, hext, if_false]
    refine ⟨hi, ?_⟩
    intro kv hkv
    rcases mem_insertA hkv with hkv | hkv
    · exact ha kv hkv
    · rw [hkv]; exact hn

theorem scan_inv_fold :
    ∀ (l : List ZipEntryFile) (st : ScanState),
      IdsInv st.ids → AttsInv st.atts → (∀ e ∈ l, '/' ∉ e.name) →
      IdsInv (l.foldl (fun st f => parseFileInfo f st) st).ids ∧
        AttsInv (l.foldl (fun st f => parseFileInfo f st) st).atts := by
  intro l
  induction l with
  | nil => intro st hi ha _; exact ⟨hi, ha⟩
  | cons e rest ih =>
    intro st hi ha hn
    have h1 := parseFileInfo_inv hi ha (hn e (by simp))
    exact ih (parseFileInfo e st) h1.1 h1.2 (fun x hx => hn x (by simp [hx]))

theorem mem_processedEntries_name {cfg : ImportConfig} (h : WellFormedCfg cfg)
    {e : ZipEntryFile} (he : e ∈ processedEntries cfg.files) : '/' ∉ e.name := by
  have h1 : e ∈ allEntries cfg.files := (List.mem_filter.mp he).1
  obtain ⟨l, hl, he2⟩ := List.mem_flatten.mp h1
  obtain ⟨z, hz, rfl⟩ := List.mem_map.mp hl
  exact h z hz e he2

theorem scanResult_inv {cfg : ImportConfig} (h : WellFormedCfg cfg) :
    IdsInv (scanResult cfg.files).ids ∧ AttsInv (scanResult cfg.files).atts := by
  refine scan_inv_fold _ _ ?_ ?_ (fun e he => mem_processedEntries_name h he)
  · exact ⟨by simp [keysA], by simp [keysA], by simp⟩
  · intro kv hkv; cases hkv

/-! ### Title disambiguation reaches a collision-free fixpoint -/

theorem markedB_iff (kv : Str × NotionFileInfo) : markedB kv = true ↔ Marked kv := by
  unfold markedB Marked
  rw [decide_eq_true_iff]
  constructor
  · intro h
    refine ⟨(kv.2.title.reverse.drop (kv.1.length + 1)).reverse, ?_⟩
    have hsplit : kv.2.title.reverse =
        (' ' :: kv.1).reverse ++ kv.2.title.reverse.drop (kv.1.length + 1) := by
      conv_lhs => rw [← List.take_append_drop (kv.1.length + 1) kv.2.title.reverse]
      rw [h]
    have := congrArg List.reverse hsplit
    simpa using this
  · rintro ⟨q, hq⟩
    rw [hq]
    have : (q ++ ' ' :: kv.1).reverse = (' ' :: kv.1).reverse ++ q.reverse := by simp
    rw [this]
    exact List.take_left' (by simp)

theorem roundTitles_keysA (ids : List (Str × NotionFileInfo)) :
    keysA (roundTitles ids) = keysA ids := by
  unfold keysA roundTitles
  rw [List.map_map]
  apply List.map_congr_left
  intro kv _
  by_cases h : dupTitle ids kv.1 kv.2.title <;> simp [roundFun, h]

theorem roundFun_marked (ids : List (Str × NotionFileInfo))
    {kv : Str × NotionFileInfo} (h : Marked kv) : Marked (roundFun ids kv) := by
  unfold roundFun
  by_cases hd : dupTitle ids kv.1 kv.2.title
  · rw [if_pos hd]; exact ⟨kv.2.title, rfl⟩
  · rw [if_neg hd]; exact h

theorem roundFun_marks_dup (ids : List (Str × NotionFileInfo))
    {kv : Str × NotionFileInfo} (hd : dupTitle ids kv.1 kv.2.title = true) :
    Marked (roundFun ids kv) := by
  unfold roundFun
  rw [if_pos hd]; exact ⟨kv.2.title, rfl⟩

/-- Two distinct marked documents cannot share a title when all ids have
the conventional 32-character length. -/
theorem marked_title_eq {ids : List (Str × NotionFileInfo)}
    {kv1 kv2 : Str × NotionFileInfo}
    (hL : ∀ k ∈ keysA ids, IdKeyShape k) (h1 : kv1 ∈ ids) (h2 : kv2 ∈ ids)
    (ht : kv1.2.title = kv2.2.title) (m1 : Marked kv1) (m2 : Marked kv2) :
    kv1.1 = kv2.1 := by
  obtain ⟨q1, hq1⟩ := m1
  obtain ⟨q2, hq2⟩ := m2
  have hlen1 : kv1.1.length = 32 :=
    (hL kv1.1 (List.mem_map.mpr ⟨kv1, h1, rfl⟩)).1
  have hlen2 : kv2.1.length = 32 :=
    (hL kv2.1 (List.mem_map.mpr ⟨kv2, h2, rfl⟩)).1
  have heq : q1 ++ ' ' :: kv1.1 = q2 ++ ' ' :: kv2.1 := by
    rw [← hq1, ← hq2, ht]
  have := List.append_inj_right' heq (by simp [hlen1, hlen2])
  simpa using this

theorem countP_comp_le {α : Type} (p : α → Bool) (g : α → α) :
    ∀ (l : List α), (∀ x ∈ l, p (g x) = true → p x = true) →
      l.countP (fun a => p (g a)) ≤ l.countP p := by
  intro l
  induction l with
  | nil => simp
  | cons x xs ih =>
    intro h
    rw [List.countP_cons, List.countP_cons]
    have hxs := ih (fun y hy => h y (by simp [hy]))
    have h0 : (if (false = true) then 1 else 0) = 0 := rfl
    have h1 : (if (true = true) then 1 else 0) = 1 := rfl
    cases hgx : p (g x) with
    | true =>
      have hpx := h x (by simp) hgx
      rw [hpx]
      simp only [h1]
      omega
    | false =>
      simp only [h0]
      cases hx : p x with
      | true => simp only [h1]; omega
      | false => simp only [h0]; omega

theorem countP_comp_lt {α : Type} (p : α → Bool) (g : α → α) :
    ∀ (l : List α), (∀ x ∈ l, p (g x) = true → p x = true) →
      (∃ x ∈ l, p x = true ∧ p (g x) = false) →
      l.countP (fun a => p (g a)) < l.countP p := by
  intro l
  induction l with
  | nil => rintro _ ⟨x, hx, _⟩; cases hx
  | cons x xs ih =>
    rintro h ⟨w, hw, hpw, hpgw⟩
    rw [List.countP_cons, List.countP_cons]
    have hmono := countP_comp_le p g xs (fun y hy => h y (by simp [hy]))
    have h0 : (if (false = true) then 1 else 0) = 0 := rfl
    have h1 : (if (true = true) then 1 else 0) = 1 := rfl
    have h2 : (if True then (1 : Nat) else 0) = 1 := rfl
    have h3 : (if False then (1 : Nat) else 0) = 0 := rfl
    rcases List.mem_cons.mp hw with hw | hw
    · subst hw
      rw [hpw, hpgw]
      simp only [h0, h1, h2, h3]
      omega
    · have hlt := ih (fun y hy => h y (by simp [hy])) ⟨w, hw, hpw, hpgw⟩
      cases hgx : p (g x) with
      | true =>
        have hpx := h x (by simp) hgx
        rw [hpx]
        simp only [h1]
        omega
      | false =>
        simp only [h0]
        cases hx : p x with
        | true => simp only [h1]; omega
        | false => simp only [h0]; omega

/-- While a collision remains, some colliding document is still unmarked. -/
theorem collision_unmarked {ids : List (Str × NotionFileInfo)}
    (hL : ∀ k ∈ keysA ids, IdKeyShape k)
    (hc : hasTitleCollision ids = true) :
    ∃ kv ∈ ids, ¬ Marked kv ∧ dupTitle ids kv.1 kv.2.title = true := by
  obtain ⟨kv, hkv, hd⟩ := List.any_eq_true.mp hc
  by_cases hm : Marked kv
  · obtain ⟨kv2, hkv2, hcond⟩ := List.any_eq_true.mp hd
    obtain ⟨hne, hteq⟩ := Bool.and_eq_true _ _ |>.mp hcond
    have hne' : ¬ (kv2.1 = kv.1) := by simpa using hne
    have hteq' : kv2.2.title = kv.2.title := of_decide_eq_true hteq
    refine ⟨kv2, hkv2, ?_, ?_⟩
    · intro hm2
      exact hne' (marked_title_eq hL hkv2 hkv hteq' hm2 hm)
    · refine List.any_eq_true.mpr ⟨kv, hkv, ?_⟩
      refine (Bool.and_eq_true _ _).mpr ⟨?_, ?_⟩
      · simpa using fun hh => hne' hh.symm
      · exact decide_eq_true hteq'.symm
  · exact ⟨kv, hkv, hm, hd⟩

theorem roundTitles_decreases {ids : List (Str × NotionFileInfo)}
    (hL : ∀ k ∈ keysA ids, IdKeyShape k)
    (hc : hasTitleCollision ids = true) :
    unmarkedCount (roundTitles ids) < unmarkedCount ids := by
  unfold unmarkedCount roundTitles
  have hmap : (ids.map (roundFun ids)).countP (fun kv => !markedB kv)
      = ids.countP (fun kv => (fun x => !markedB x) (roundFun ids kv)) := by
    rw [List.countP_map]; rfl
  rw [hmap]
  apply countP_comp_lt (fun x => !markedB x) (roundFun ids)
  · intro kv _ hp
    cases hmb : markedB kv with
    | false => simp
    | true =>
      exfalso
      have hm := (markedB_iff kv).mp hmb
      have h2 := (markedB_iff _).mpr (roundFun_marked ids hm)
      simp only [h2] at hp
      simp at hp
  · obtain ⟨kv, hkv, hnm, hd⟩ := collision_unmarked hL hc
    refine ⟨kv, hkv, ?_, ?_⟩
    · cases hmb : markedB kv with
      | false => simp
      | true => exact absurd ((markedB_iff kv).mp hmb) hnm
    · have h2 := (markedB_iff _).mpr (roundFun_marks_dup ids hd)
      simp only [h2]
      simp

theorem hex_no_slash {k : Str} (h : IdKeyShape k) : '/' ∉ k := by
  intro hmem
  have := h.2 '/' hmem
  simp [isHexChar] at this

theorem roundTitles_inv {ids : List (Str × NotionFileInfo)} (h : IdsInv ids) :
    IdsInv (roundTitles ids) := by
  refine ⟨?_, ?_, ?_⟩
  · rw [roundTitles_keysA]; exact h.1
  · rw [roundTitles_keysA]; exact h.2.1
  · intro kv hkv
    obtain ⟨kv0, hkv0, rfl⟩ := List.mem_map.mp hkv
    unfold roundFun
    by_cases hd : dupTitle ids kv0.1 kv0.2.title = true
    · rw [if_pos hd]
      intro hc
      rcases List.mem_append.mp hc with hc | hc
      · exact h.2.2 kv0 hkv0 hc
      · rcases List.mem_cons.mp hc with hc | hc
        · cases hc
        · exact hex_no_slash (h.2.1 kv0.1 (List.mem_map.mpr ⟨kv0, hkv0, rfl⟩)) hc
    · rw [if_neg hd]
      exact h.2.2 kv0 hkv0

theorem disambiguate_no_collision :
    ∀ (fuel : Nat) (ids : List (Str × NotionFileInfo)), IdsInv ids →
      unmarkedCount ids < fuel →
      hasTitleCollision (disambiguateTitles fuel ids) = false ∧
        IdsInv (disambiguateTitles fuel ids) := by
  intro fuel
  induction fuel with
  | zero => intro ids _ h; omega
  | succ fuel ih =>
    intro ids hinv hcount
    show hasTitleCollision (if hasTitleCollision ids = true then
        disambiguateTitles fuel (roundTitles ids) else ids) = false ∧
      IdsInv (if hasTitleCollision ids = true then
        disambiguateTitles fuel (roundTitles ids) else ids)
    by_cases hc : hasTitleCollision ids = true
    · rw [if_pos hc]
      have hdec := roundTitles_decreases hinv.2.1 hc
      exact ih (roundTitles ids) (roundTitles_inv hinv) (by omega)
    · rw [if_neg hc]
      exact ⟨by simpa using hc, hinv⟩

theorem cleanIds_no_collision {ids : List (Str × NotionFileInfo)} (hinv : IdsInv ids) :
    hasTitleCollision (cleanIds ids) = false ∧ IdsInv (cleanIds ids) := by
  refine disambiguate_no_collision (ids.length + 1) ids hinv ?_
  have hcount : unmarkedCount ids ≤ ids.length := List.countP_le_length _
  omega

theorem disambiguate_of_no_collision {ids : List (Str × NotionFileInfo)}
    (h : hasTitleCollision ids = false) :
    ∀ fuel, disambiguateTitles fuel ids = ids := by
  intro fuel
  cases fuel with
  | zero => rfl
  | succ fuel =>
    show (if hasTitleCollision ids = true then
        disambiguateTitles fuel (roundTitles ids) else ids) = ids
    rw [if_neg (by simp [h])]

theorem cleanIds_idem {ids : List (Str × NotionFileInfo)} (hinv : IdsInv ids) :
    cleanIds (cleanIds ids) = cleanIds ids :=
  disambiguate_of_no_collision (cleanIds_no_collision hinv).1 _

theorem titles_injective {ids : List (Str × NotionFileInfo)}
    (hc : hasTitleCollision ids = false) (hn : (keysA ids).Nodup)
    {kv1 kv2 : Str × NotionFileInfo} (h1 : kv1 ∈ ids) (h2 : kv2 ∈ ids)
    (ht : kv1.2.title = kv2.2.title) : kv1 = kv2 := by
  by_cases hk : kv1.1 = kv2.1
  · have h1' : (kv1.1, kv1.2) ∈ ids := h1
    have h2' : (kv1.1, kv2.2) ∈ ids := by rw [hk]; exact h2
    have := keys_nodup_unique hn h1' h2'
    exact Prod.ext hk this
  · exfalso
    have hdup : dupTitle ids kv1.1 kv1.2.title = true := by
      refine List.any_eq_true.mpr ⟨kv2, h2, ?_⟩
      refine (Bool.and_eq_true _ _).mpr ⟨?_, ?_⟩
      · simpa using fun hh => hk hh.symm
      · exact decide_eq_true ht.symm
    have : hasTitleCollision ids = true :=
      List.any_eq_true.mpr ⟨kv1, h1, hdup⟩
    rw [this] at hc
    cases hc

/-! ### Injectivity of planned document paths -/

theorem segOf_ends_slash (docs : List (Str × NotionFileInfo)) (pid : Str) :
    EndsSlash (segOf docs pid) :=
  ⟨_, rfl⟩

theorem ends_slash_flatten :
    ∀ (segs : List Str) (a : Str), EndsSlash a → (∀ s ∈ segs, EndsSlash s) →
      EndsSlash (a ++ segs.flatten) := by
  intro segs
  induction segs with
  | nil => intro a ha _; simpa using ha
  | cons s rest ih =>
    intro a ha h
    rw [List.flatten_cons, ← List.append_assoc]
    exact ih (a ++ s) (ends_slash_append (h s (by simp))) (fun x hx => h x (by simp [hx]))

theorem docFolder_ends_slash {target : Str} (ht : EndsSlash target)
    (docs : List (Str × NotionFileInfo)) (info : NotionFileInfo) :
    EndsSlash (target ++ (assembleParentIds info docs).flatten) := by
  refine ends_slash_flatten _ _ ht ?_
  intro s hs
  obtain ⟨pid, _, rfl⟩ := List.mem_map.mp hs
  exact segOf_ends_slash docs pid

theorem slash_not_mem_mdExt : '/' ∉ mdExt := by decide

theorem docPath_eq_title_eq {target : Str} {ids : List (Str × NotionFileInfo)}
    {i1 i2 : NotionFileInfo} (ht : EndsSlash target)
    (hs1 : '/' ∉ i1.title) (hs2 : '/' ∉ i2.title)
    (h : docPath target ids i1 = docPath target ids i2) : i1.title = i2.title := by
  unfold docPath at h
  have h' : (target ++ (assembleParentIds i1 ids).flatten) ++ (i1.title ++ mdExt) =
      (target ++ (assembleParentIds i2 ids).flatten) ++ (i2.title ++ mdExt) := by
    simpa [List.append_assoc] using h
  have hn1 : '/' ∉ i1.title ++ mdExt := by
    intro hx
    rcases List.mem_append.mp hx with hx | hx
    · exact hs1 hx
    · exact slash_not_mem_mdExt hx
  have hn2 : '/' ∉ i2.title ++ mdExt := by
    intro hx
    rcases List.mem_append.mp hx with hx | hx
    · exact hs2 hx
    · exact slash_not_mem_mdExt hx
  have hsplit := split_path h' (docFolder_ends_slash ht ids i1)
    (docFolder_ends_slash ht ids i2) hn1 hn2
  exact (List.append_inj' hsplit.2 rfl).1

theorem docPathsList_nodup {target : Str} {ids : List (Str × NotionFileInfo)}
    (ht : EndsSlash target) (hc : hasTitleCollision ids = false)
    (hn : (keysA ids).Nodup) (hsl : ∀ kv ∈ ids, '/' ∉ kv.2.title) :
    (docPathsList target ids).Nodup := by
  unfold docPathsList
  refine nodup_map_of_injOn (List.Nodup.of_map _ hn) ?_
  intro a ha b hb hab
  have ht' := docPath_eq_title_eq ht (hsl a ha) (hsl b hb) hab
  exact titles_injective hc hn ha hb ht'

/-! ### The uniquifier assigns fresh, pairwise-distinct attachment paths -/

theorem candName_length (name : Str) (k : Nat) :
    (candName name k).length = name.length + (if k = 0 then 0 else k + 3) := by
  cases k with
  | zero => simp [candName]
  | succ k => simp [candName]

theorem firstFreeAux_free {used : List Str} {folder name : Str} :
    ∀ (fuel k : Nat),
      (∃ j, k ≤ j ∧ j < k + fuel ∧ (folder ++ candName name j) ∉ used) →
      (folder ++ candName name (firstFreeAux used folder name fuel k)) ∉ used := by
  intro fuel
  induction fuel with
  | zero =>
    rintro k ⟨j, h1, h2, _⟩
    omega
  | succ fuel ih =>
    rintro k ⟨j, h1, h2, hj⟩
    show (folder ++ candName name
      (if (folder ++ candName name k) ∈ used then
        firstFreeAux used folder name fuel (k + 1) else k)) ∉ used
    by_cases hk : (folder ++ candName name k) ∈ used
    · rw [if_pos hk]
      refine ih (k + 1) ⟨j, ?_, by omega, hj⟩
      rcases Nat.eq_or_lt_of_le h1 with h | h
      · exact absurd hj (h ▸ fun hc => hc hk)
      · omega
    · rw [if_neg hk]
      exact hk

theorem firstFree_free (used : List Str) (folder name : Str) :
    (folder ++ candName name (firstFree used folder name)) ∉ used := by
  refine firstFreeAux_free (maxLen used + 2) 0 ⟨maxLen used + 1, by omega, by omega, ?_⟩
  intro hmem
  have hle := le_maxLen hmem
  rw [List.length_append, candName_length, if_neg (by omega)] at hle
  omega

theorem attPath_uniqStep (used : List Str) (a : NotionAttachmentInfo) :
    attPath (uniqStep used a) =
      a.targetParentFolder ++ candName a.nameWithExtension
        (firstFree used a.targetParentFolder a.nameWithExtension) := rfl

theorem uniqStep_free (used : List Str) (a : NotionAttachmentInfo) :
    attPath (uniqStep used a) ∉ used := by
  rw [attPath_uniqStep]
  exact firstFree_free used a.targetParentFolder a.nameWithExtension

theorem uniqStep_id {used : List Str} {a : NotionAttachmentInfo}
    (h0 : attPath a ∉ used) : uniqStep used a = a := by
  have hk0 : firstFree used a.targetParentFolder a.nameWithExtension = 0 := by
    unfold firstFree
    show (if (a.targetParentFolder ++ candName a.nameWithExtension 0) ∈ used then
      firstFreeAux used a.targetParentFolder a.nameWithExtension
        (maxLen used + 1) 1 else 0) = 0
    rw [if_neg (by simpa [candName, attPath] using h0)]
  unfold uniqStep
  rw [hk0]
  rfl

theorem uniquifyAux_spec :
    ∀ (l : List (Str × NotionAttachmentInfo)) (used : List Str),
      (∀ pa ∈ uniquifyAux used l, attPath pa.2 ∉ used) ∧
        ((uniquifyAux used l).map (fun pa => attPath pa.2)).Nodup := by
  intro l
  induction l with
  | nil =>
    intro used
    refine ⟨?_, by simp [uniquifyAux]⟩
    intro pa hpa
    cases hpa
  | cons x rest ih =>
    intro used
    obtain ⟨p, a⟩ := x
    have hdef : uniquifyAux used ((p, a) :: rest) =
        (p, uniqStep used a) ::
          uniquifyAux (attPath (uniqStep used a) :: used) rest := rfl
    have hfree := uniqStep_free used a
    obtain ⟨ih1, ih2⟩ := ih (attPath (uniqStep used a) :: used)
    rw [hdef]
    constructor
    · intro pa hpa
      rcases List.mem_cons.mp hpa with hpa | hpa
      · rw [hpa]
        exact hfree
      · exact fun hc => ih1 pa hpa (by simp [hc])
    · rw [List.map_cons, List.nodup_cons]
      refine ⟨?_, ih2⟩
      intro hmem
      obtain ⟨pa, hpa, hq⟩ := List.mem_map.mp hmem
      exact ih1 pa hpa (by simp [hq])

theorem uniquifyAux_id :
    ∀ (l : List (Str × NotionAttachmentInfo)) (used : List Str),
      (∀ pa ∈ l, attPath pa.2 ∉ used) →
      ((l.map (fun pa => attPath pa.2)).Nodup) →
      uniquifyAux used l = l := by
  intro l
  induction l with
  | nil => intro used _ _; rfl
  | cons x rest ih =>
    intro used hfree hnd
    obtain ⟨p, a⟩ := x
    have h0 : attPath a ∉ used := hfree (p, a) (by simp)
    have hdef : uniquifyAux used ((p, a) :: rest) =
        (p, uniqStep used a) ::
          uniquifyAux (attPath (uniqStep used a) :: used) rest := rfl
    rw [hdef, uniqStep_id h0]
    congr 1
    rw [List.map_cons, List.nodup_cons] at hnd
    refine ih (attPath a :: used) ?_ hnd.2
    intro pa hpa hc
    rcases List.mem_cons.mp hc with hc | hc
    · exact hnd.1 (List.mem_map.mpr ⟨pa, hpa, hc⟩)
    · exact hfree pa (by simp [hpa]) hc

theorem candName_no_slash {name : Str} (h : '/' ∉ name) (k : Nat) :
    '/' ∉ candName name k := by
  cases k with
  | zero => exact h
  | succ k =>
    intro hc
    simp only [candName] at hc
    rcases List.mem_append.mp hc with hc | hc
    · exact h hc
    · rcases List.mem_cons.mp hc with hc | hc
      · cases hc
      · rcases List.mem_cons.mp hc with hc | hc
        · cases hc
        · rcases List.mem_append.mp hc with hc | hc
          · have := List.eq_of_mem_replicate hc
            cases this
          · rcases List.mem_cons.mp hc with hc | hc
            · cases hc
            · cases hc

theorem uniquifyAux_shape :
    ∀ (l : List (Str × NotionAttachmentInfo)) (used : List Str),
      ∀ pa ∈ uniquifyAux used l, ∃ pa0 ∈ l,
        pa.1 = pa0.1 ∧ pa.2.ownerId = pa0.2.ownerId ∧
        pa.2.byteSize = pa0.2.byteSize ∧
        pa.2.targetParentFolder = pa0.2.targetParentFolder ∧
        ∃ k, pa.2.nameWithExtension = candName pa0.2.nameWithExtension k := by
  intro l
  induction l with
  | nil => intro used pa hpa; cases hpa
  | cons x rest ih =>
    intro used pa hpa
    obtain ⟨p, a⟩ := x
    have hdef : uniquifyAux used ((p, a) :: rest) =
        (p, uniqStep used a) ::
          uniquifyAux (attPath (uniqStep used a) :: used) rest := rfl
    rw [hdef] at hpa
    rcases List.mem_cons.mp hpa with hpa | hpa
    · refine ⟨(p, a), by simp, ?_⟩
      rw [hpa]
      exact ⟨rfl, rfl, rfl, rfl, _, rfl⟩
    · obtain ⟨pa0, hpa0, hf⟩ := ih _ pa hpa
      exact ⟨pa0, by simp [hpa0], hf⟩

/-! ### Attachment deduplication -/

theorem sameAttGroup_iff (a b : NotionAttachmentInfo) :
    sameAttGroup a b = true ↔ gKey a = gKey b := by
  unfold sameAttGroup gKey
  rw [Bool.and_eq_true, decide_eq_true_iff, decide_eq_true_iff, Prod.ext_iff]

theorem mem_dedupStep {acc : List (Str × NotionAttachmentInfo)}
    {e y : Str × NotionAttachmentInfo} (h : y ∈ dedupStep acc e) :
    y ∈ acc ∨ y = e := by
  unfold dedupStep at h
  split at h
  · obtain ⟨x, hx, hy⟩ := List.mem_map.mp h
    by_cases hc : (sameAttGroup x.2 e.2 && decide (x.2.byteSize < e.2.byteSize)) = true
    · rw [if_pos hc] at hy
      exact Or.inr hy.symm
    · rw [if_neg hc] at hy
      exact Or.inl (hy ▸ hx)
  · rcases List.mem_append.mp h with h | h
    · exact Or.inl h
    · exact Or.inr (by simpa using h)

theorem mem_dedup_fold {y : Str × NotionAttachmentInfo} :
    ∀ (l acc : List (Str × NotionAttachmentInfo)),
      y ∈ l.foldl dedupStep acc → y ∈ acc ∨ y ∈ l := by
  intro l
  induction l with
  | nil => intro acc h; exact Or.inl h
  | cons e rest ih =>
    intro acc h
    rw [List.foldl_cons] at h
    rcases ih (dedupStep acc e) h with h | h
    · rcases mem_dedupStep h with h | h
      · exact Or.inl h
      · exact Or.inr (by simp [h])
    · exact Or.inr (by simp [h])

theorem mem_dedupAttachments {y : Str × NotionAttachmentInfo}
    {l : List (Str × NotionAttachmentInfo)} (h : y ∈ dedupAttachments l) : y ∈ l := by
  rcases mem_dedup_fold l [] h with h | h
  · cases h
  · exact h

theorem dedup_fold_id :
    ∀ (m acc : List (Str × NotionAttachmentInfo)),
      (∀ e ∈ m, ∀ x ∈ acc, gKey x.2 ≠ gKey e.2) →
      m.Pairwise (fun x y => gKey x.2 ≠ gKey y.2) →
      m.foldl dedupStep acc = acc ++ m := by
  intro m
  induction m with
  | nil => intro acc _ _; simp
  | cons e rest ih =>
    intro acc hacc hp
    have hany : (acc.any (fun x => sameAttGroup x.2 e.2)) = false := by
      rw [Bool.eq_false_iff]
      intro hc
      obtain ⟨x, hx, hsx⟩ := List.any_eq_true.mp hc
      exact hacc e (by simp) x hx ((sameAttGroup_iff _ _).mp hsx)
    have hstep : dedupStep acc e = acc ++ [e] := by
      unfold dedupStep
      rw [hany]
      rfl
    rw [List.foldl_cons, hstep]
    rcases List.pairwise_cons.mp hp with ⟨he, hrest⟩
    rw [ih (acc ++ [e]) ?_ hrest]
    · simp
    · intro e2 he2 x hx
      rcases List.mem_append.mp hx with hx | hx
      · exact hacc e2 (by simp [he2]) x hx
      · have : x = e := by simpa using hx
        rw [this]
        exact he e2 he2

theorem dedupAttachments_id {l : List (Str × NotionAttachmentInfo)}
    (hp : l.Pairwise (fun x y => gKey x.2 ≠ gKey y.2)) :
    dedupAttachments l = l := by
  unfold dedupAttachments
  rw [dedup_fold_id l [] (fun e _ x hx => absurd hx (by simp)) hp]
  simp

/-! ### The cleaned mappings: collision-free paths and idempotence -/

theorem endsSlashB_iff (p : Str) : endsSlashB p = true ↔ EndsSlash p := by
  unfold endsSlashB EndsSlash
  cases hrev : p.reverse with
  | nil =>
    have hp : p = [] := by
      have := congrArg List.reverse hrev
      simpa using this
    subst hp
    constructor
    · intro h; cases h
    · rintro ⟨q, hq⟩
      exact absurd (congrArg List.length hq) (by simp)
  | cons c r =>
    have hp : p = r.reverse ++ [c] := by
      have := congrArg List.reverse hrev
      simpa using this
    constructor
    · intro h
      exact ⟨r.reverse, by rw [hp, of_decide_eq_true h]⟩
    · rintro ⟨q, hq⟩
      have : c = '/' := by
        have h2 := hq ▸ hrev
        have h3 : (q ++ ['/']).reverse = c :: r := h2
        simpa using (congrArg (fun l => l.head?) h3).symm
      simp [this]

theorem ensureSlash_ends (p : Str) : EndsSlash (ensureSlash p) := by
  unfold ensureSlash
  by_cases h : endsSlashB p = true
  · rw [if_pos h]
    exact (endsSlashB_iff p).mp h
  · rw [if_neg h]
    exact ⟨p, rfl⟩

theorem folderFor_ends_slash {args : CleanArgs} (ht : EndsSlash args.targetFolderPath)
    (ids : List (Str × NotionFileInfo)) (o : Option Str) :
    EndsSlash (folderFor args ids o) := by
  unfold folderFor
  by_cases hafp : args.attachmentFolderPath.isEmpty = true
  · rw [if_pos hafp]
    rw [List.append_nil]
    by_cases hsub : args.parentsInSubfolders = true
    · rw [if_pos hsub]
      cases o with
      | none => exact ht
      | some oid =>
        dsimp only
        cases h : lookupA oid ids with
        | none => exact ht
        | some oinfo =>
          refine ⟨args.targetFolderPath ++ (assembleParentIds oinfo ids).flatten ++
            oinfo.title, ?_⟩
          simp
    · rw [if_neg hsub]
      exact ht
  · rw [if_neg hafp]
    exact ends_slash_append ⟨args.attachmentFolderPath, rfl⟩

theorem cleanDuplicates_eq (args : CleanArgs) (ids : List (Str × NotionFileInfo))
    (atts : List (Str × NotionAttachmentInfo)) :
    cleanDuplicates args ids atts = (cleanIds ids, cleanedAtts args ids atts) := rfl

theorem cleanedAtts_folder {args : CleanArgs} {ids : List (Str × NotionFileInfo)}
    {atts : List (Str × NotionAttachmentInfo)} :
    ∀ pa ∈ cleanedAtts args ids atts,
      pa.2.targetParentFolder = folderFor args (cleanIds ids) pa.2.ownerId := by
  intro pa hpa
  obtain ⟨pa0, hpa0, _, h2, _, h4, _, _⟩ := uniquifyAux_shape _ _ pa hpa
  obtain ⟨pa1, _, rfl⟩ := List.mem_map.mp hpa0
  rw [h4, h2]
  rfl

theorem cleanedAtts_inv {args : CleanArgs} {ids : List (Str × NotionFileInfo)}
    {atts : List (Str × NotionAttachmentInfo)} (ha : AttsInv atts) :
    AttsInv (cleanedAtts args ids atts) := by
  intro pa hpa
  obtain ⟨pa0, hpa0, _, _, _, _, k, h5⟩ := uniquifyAux_shape _ _ pa hpa
  obtain ⟨pa1, hpa1, rfl⟩ := List.mem_map.mp hpa0
  rw [h5]
  exact candName_no_slash (ha pa1 (mem_dedupAttachments hpa1)) k

theorem cleanedAtts_spec (args : CleanArgs) (ids : List (Str × NotionFileInfo))
    (atts : List (Str × NotionAttachmentInfo)) :
    (∀ pa ∈ cleanedAtts args ids atts,
        attPath pa.2 ∉ docPathsList args.targetFolderPath (cleanIds ids)) ∧
      ((cleanedAtts args ids atts).map (fun pa => attPath pa.2)).Nodup :=
  uniquifyAux_spec _ _

theorem cleanedAtts_pairwise (args : CleanArgs) (ids : List (Str × NotionFileInfo))
    (atts : List (Str × NotionAttachmentInfo)) :
    (cleanedAtts args ids atts).Pairwise (fun x y => gKey x.2 ≠ gKey y.2) := by
  have hnd := (cleanedAtts_spec args ids atts).2
  have hpw := (List.pairwise_map).mp hnd
  refine pairwise_imp_mem ?_ hpw
  intro a ha b hb hne hg
  apply hne
  unfold attPath
  have h1 := cleanedAtts_folder a ha
  have h2 := cleanedAtts_folder b hb
  have howner : a.2.ownerId = b.2.ownerId := congrArg Prod.fst hg
  have hname : a.2.nameWithExtension = b.2.nameWithExtension := congrArg Prod.snd hg
  rw [h1, h2, howner, hname]

theorem att_folder_id {a : NotionAttachmentInfo} {F : Str}
    (h : a.targetParentFolder = F) : { a with targetParentFolder := F } = a := by
  cases a
  simp only at h
  rw [h]

theorem cleanDuplicates_idem (args : CleanArgs) {ids : List (Str × NotionFileInfo)}
    (atts : List (Str × NotionAttachmentInfo)) (hinv : IdsInv ids) :
    cleanDuplicates args (cleanDuplicates args ids atts).1
      (cleanDuplicates args ids atts).2 = cleanDuplicates args ids atts := by
  rw [cleanDuplicates_eq, cleanDuplicates_eq]
  have h1 : cleanIds (cleanIds ids) = cleanIds ids := cleanIds_idem hinv
  refine Prod.ext h1 ?_
  show cleanedAtts args (cleanIds ids) (cleanedAtts args ids atts) = cleanedAtts args ids atts
  have e1 : cleanedAtts args (cleanIds ids) (cleanedAtts args ids atts) =
      uniquifyNames (docPathsList args.targetFolderPath (cleanIds (cleanIds ids)))
        ((dedupAttachments (cleanedAtts args ids atts)).map
          (fun pa => (pa.1, assignFolder args (cleanIds (cleanIds ids)) pa.2))) := rfl
  rw [e1, h1, dedupAttachments_id (cleanedAtts_pairwise args ids atts)]
  have h3 : (cleanedAtts args ids atts).map
      (fun pa => (pa.1, assignFolder args (cleanIds ids) pa.2)) =
      cleanedAtts args ids atts := by
    refine map_eq_self ?_
    intro pa hpa
    have hf := cleanedAtts_folder pa hpa
    show (pa.1, assignFolder args (cleanIds ids) pa.2) = pa
    unfold assignFolder
    rw [att_folder_id hf]
  rw [h3]
  exact uniquifyAux_id _ _ (cleanedAtts_spec args ids atts).1
    (cleanedAtts_spec args ids atts).2

/-! ### Shape of the run trace -/

theorem runImport_eq (env : Env) (cfg : ImportConfig) (f : Str)
    (h1 : cfg.files ≠ []) (h2 : cfg.outputFolder = some f) :
    runImport env cfg = scanTrace cfg ++ folderTrace cfg f ++ pass2TraceOf env cfg f := by
  unfold runImport
  rw [if_neg (by simpa using h1), h2]
  rfl

theorem tryProcess_content (env : Env) (target : Str)
    (ids : List (Str × NotionFileInfo)) (atts : List (Str × NotionAttachmentInfo))
    (e : ZipEntryFile) :
    ∀ ev ∈ (tryProcessEntry env target ids atts e).1, isPass2Content ev = true := by
  intro ev hev
  unfold tryProcessEntry at hev
  by_cases hext : e.extension = htmlExt
  · rw [if_pos hext] at hev
    cases hid : getNotionId e.name with
    | none => rw [hid] at hev; simp at hev
    | some id =>
      rw [hid] at hev
      dsimp only at hev
      cases hlook : lookupA id ids with
      | none => rw [hlook] at hev; simp at hev
      | some info =>
        rw [hlook] at hev
        dsimp only at hev
        cases hconv : env.convert e with
        | error err => rw [hconv] at hev; simp at hev
        | ok out =>
          rw [hconv] at hev
          dsimp only at hev
          by_cases hok : env.createOk (docPath target ids info) = true
          · rw [if_pos hok] at hev
            by_cases hprop : out.properties.isEmpty = true
            · rw [if_pos hprop] at hev
              simp only [List.mem_cons, List.not_mem_nil, or_false] at hev
              rcases hev with rfl | rfl <;> rfl
            · rw [if_neg hprop] at hev
              simp only [List.mem_cons, List.not_mem_nil, or_false] at hev
              rcases hev with rfl | rfl | rfl <;> rfl
          · rw [if_neg hok] at hev
            simp at hev
  · rw [if_neg hext] at hev
    cases hlook : lookupA e.filepath atts with
    | none => rw [hlook] at hev; simp at hev
    | some a =>
      rw [hlook] at hev
      dsimp only at hev
      by_cases hok : env.writeBinOk (attPath a) = true
      · rw [if_pos hok] at hev
        simp only [List.mem_cons, List.not_mem_nil, or_false] at hev
        rcases hev with rfl | rfl <;> rfl
      · rw [if_neg hok] at hev
        simp at hev

theorem content_classify {ev : Event} (h : isPass2Content ev = true) :
    isCreateEvent ev = false ∧ isFailedEvent ev = false ∧ isProgressEvent ev = false ∧
      (∀ m, ev ≠ Event.notice m) ∧ (∀ p, ev ≠ Event.reportSkipped p) := by
  cases ev <;> simp_all [isPass2Content, isCreateEvent, isFailedEvent, isProgressEvent]

theorem entryBlock_eq (env : Env) (target : Str) (ids : List (Str × NotionFileInfo))
    (atts : List (Str × NotionAttachmentInfo)) (total idx : Nat) (e : ZipEntryFile) :
    entryBlock env target ids atts total idx e =
      Event.reportProgress (idx + 1) total ::
        ((tryProcessEntry env target ids atts e).1 ++
          (match (tryProcessEntry env target ids atts e).2 with
           | some err => [Event.reportFailed e.filepath err]
           | none => [])) := rfl

theorem entryBlock_countFailed (env : Env) (target : Str)
    (ids : List (Str × NotionFileInfo)) (atts : List (Str × NotionAttachmentInfo))
    (total idx : Nat) (e : ZipEntryFile) :
    (entryBlock env target ids atts total idx e).countP isFailedEvent =
      (if (tryProcessEntry env target ids atts e).2.isSome then 1 else 0) := by
  rw [entryBlock_eq, List.countP_cons, List.countP_append]
  have h1 : (tryProcessEntry env target ids atts e).1.countP isFailedEvent = 0 := by
    rw [List.countP_eq_length_filter, List.length_eq_zero, List.filter_eq_nil_iff]
    intro ev hev
    rw [(content_classify (tryProcess_content env target ids atts e ev hev)).2.1]
    simp
  rw [h1]
  cases h2 : (tryProcessEntry env target ids atts e).2 with
  | none => rfl
  | some err => rfl

theorem entryBlock_countProgress (env : Env) (target : Str)
    (ids : List (Str × NotionFileInfo)) (atts : List (Str × NotionAttachmentInfo))
    (total idx : Nat) (e : ZipEntryFile) :
    (entryBlock env target ids atts total idx e).countP isProgressEvent = 1 := by
  rw [entryBlock_eq, List.countP_cons, List.countP_append]
  have h1 : (tryProcessEntry env target ids atts e).1.countP isProgressEvent = 0 := by
    rw [List.countP_eq_length_filter, List.length_eq_zero, List.filter_eq_nil_iff]
    intro ev hev
    rw [(content_classify (tryProcess_content env target ids atts e ev hev)).2.2.1]
    simp
  rw [h1]
  cases h2 : (tryProcessEntry env target ids atts e).2 with
  | none => rfl
  | some err => rfl

theorem entryBlock_failed_mem (env : Env) (target : Str)
    (ids : List (Str × NotionFileInfo)) (atts : List (Str × NotionAttachmentInfo))
    (total idx : Nat) (e : ZipEntryFile) {err : Str}
    (h : (tryProcessEntry env target ids atts e).2 = some err) :
    Event.reportFailed e.filepath err ∈ entryBlock env target ids atts total idx e := by
  rw [entryBlock_eq, h]
  simp

theorem entryBlock_no_create (env : Env) (target : Str)
    (ids : List (Str × NotionFileInfo)) (atts : List (Str × NotionAttachmentInfo))
    (total idx : Nat) (e : ZipEntryFile) :
    ∀ ev ∈ entryBlock env target ids atts total idx e, isCreateEvent ev = false := by
  intro ev hev
  rw [entryBlock_eq] at hev
  rcases List.mem_cons.mp hev with hev | hev
  · rw [hev]; rfl
  · rcases List.mem_append.mp hev with hev | hev
    · exact (content_classify (tryProcess_content env target ids atts e ev hev)).1
    · cases h2 : (tryProcessEntry env target ids atts e).2 with
      | none => rw [h2] at hev; cases hev
      | some err =>
        rw [h2] at hev
        rcases List.mem_cons.mp hev with hev | hev
        · rw [hev]; rfl
        · cases hev

theorem mem_entryBlock_cases {env : Env} {target : Str}
    {ids : List (Str × NotionFileInfo)} {atts : List (Str × NotionAttachmentInfo)}
    {total idx : Nat} {e : ZipEntryFile} {ev : Event}
    (h : ev ∈ entryBlock env target ids atts total idx e) :
    ev = Event.reportProgress (idx + 1) total ∨
      ev ∈ (tryProcessEntry env target ids atts e).1 ∨
      ∃ err, (tryProcessEntry env target ids atts e).2 = some err ∧
        ev = Event.reportFailed e.filepath err := by
  rw [entryBlock_eq] at h
  rcases List.mem_cons.mp h with h | h
  · exact Or.inl h
  · rcases List.mem_append.mp h with h | h
    · exact Or.inr (Or.inl h)
    · refine Or.inr (Or.inr ?_)
      cases h2 : (tryProcessEntry env target ids atts e).2 with
      | none => rw [h2] at h; cases h
      | some err =>
        rw [h2] at h
        rcases List.mem_cons.mp h with h | h
        · exact ⟨err, rfl, h⟩
        · cases h

theorem tryProcess_writeNote {env : Env} {target : Str}
    {ids : List (Str × NotionFileInfo)} {atts : List (Str × NotionAttachmentInfo)}
    {e : ZipEntryFile} {p b : Str}
    (h : Event.writeNote p b ∈ (tryProcessEntry env target ids atts e).1) :
    ∃ id info, getNotionId e.name = some id ∧ lookupA id ids = some info ∧
      p = docPath target ids info := by
  unfold tryProcessEntry at h
  by_cases hext : e.extension = htmlExt
  · rw [if_pos hext] at h
    cases hid : getNotionId e.name with
    | none => rw [hid] at h; simp at h
    | some id =>
      rw [hid] at h
      dsimp only at h
      cases hlook : lookupA id ids with
      | none => rw [hlook] at h; simp at h
      | some info =>
        rw [hlook] at h
        dsimp only at h
        cases hconv : env.convert e with
        | error err => rw [hconv] at h; simp at h
        | ok out =>
          rw [hconv] at h
          dsimp only at h
          by_cases hok : env.createOk (docPath target ids info) = true
          · rw [if_pos hok] at h
            refine ⟨id, info, rfl, hlook, ?_⟩
            by_cases hprop : out.properties.isEmpty = true
            · rw [if_pos hprop] at h
              simp only [List.mem_cons, List.not_mem_nil, or_false] at h
              rcases h with h | h
              · exact (Event.writeNote.injEq _ _ _ _ ▸ h).1
              · cases h
            · rw [if_neg hprop] at h
              simp only [List.mem_cons, List.not_mem_nil, or_false] at h
              rcases h with h | h | h
              · exact (Event.writeNote.injEq _ _ _ _ ▸ h).1
              · cases h
              · cases h
          · rw [if_neg hok] at h
            simp at h
  · rw [if_neg hext] at h
    cases hlook : lookupA e.filepath atts with
    | none => rw [hlook] at h; simp at h
    | some a =>
      rw [hlook] at h
      dsimp only at h
      by_cases hok : env.writeBinOk (attPath a) = true
      · rw [if_pos hok] at h
        simp at h
      · rw [if_neg hok] at h
        simp at h

theorem tryProcess_html_noId {env : Env} {target : Str}
    {ids : List (Str × NotionFileInfo)} {atts : List (Str × NotionAttachmentInfo)}
    {e : ZipEntryFile} (hext : e.extension = htmlExt)
    (hid : getNotionId e.name = none) :
    tryProcessEntry env target ids atts e =
      ([], some ("ids not found for ".data ++ e.filepath)) := by
  unfold tryProcessEntry
  rw [if_pos hext, hid]

theorem tryProcess_html_noInfo {env : Env} {target : Str}
    {ids : List (Str × NotionFileInfo)} {atts : List (Str × NotionAttachmentInfo)}
    {e : ZipEntryFile} {id : Str} (hext : e.extension = htmlExt)
    (hid : getNotionId e.name = some id) (hlook : lookupA id ids = none) :
    tryProcessEntry env target ids atts e =
      ([], some ("file info not found for ".data ++ e.filepath)) := by
  unfold tryProcessEntry
  rw [if_pos hext, hid]
  dsimp only
  rw [hlook]

theorem tryProcess_att_noInfo {env : Env} {target : Str}
    {ids : List (Str × NotionFileInfo)} {atts : List (Str × NotionAttachmentInfo)}
    {e : ZipEntryFile} (hext : ¬ (e.extension = htmlExt))
    (hlook : lookupA e.filepath atts = none) :
    tryProcessEntry env target ids atts e =
      ([], some ("attachment info not found for ".data ++ e.filepath)) := by
  unfold tryProcessEntry
  rw [if_neg hext, hlook]

theorem tryProcess_html_no_att_events {env : Env} {target : Str}
    {ids : List (Str × NotionFileInfo)} {atts : List (Str × NotionAttachmentInfo)}
    {e : ZipEntryFile} (hext : e.extension = htmlExt) :
    ∀ ev ∈ (tryProcessEntry env target ids atts e).1,
      (∀ p, ev ≠ Event.writeBinary p) ∧ (∀ p, ev ≠ Event.reportAttachmentSuccess p) := by
  intro ev hev
  unfold tryProcessEntry at hev
  rw [if_pos hext] at hev
  cases hid : getNotionId e.name with
  | none => rw [hid] at hev; simp at hev
  | some id =>
    rw [hid] at hev
    dsimp only at hev
    cases hlook : lookupA id ids with
    | none => rw [hlook] at hev; simp at hev
    | some info =>
      rw [hlook] at hev
      dsimp only at hev
      cases hconv : env.convert e with
      | error err => rw [hconv] at hev; simp at hev
      | ok out =>
        rw [hconv] at hev
        dsimp only at hev
        by_cases hok : env.createOk (docPath target ids info) = true
        · rw [if_pos hok] at hev
          by_cases hprop : out.properties.isEmpty = true
          · rw [if_pos hprop] at hev
            simp only [List.mem_cons, List.not_mem_nil, or_false] at hev
            rcases hev with rfl | rfl <;>
              exact ⟨fun p hc => Event.noConfusion hc, fun p hc => Event.noConfusion hc⟩
          · rw [if_neg hprop] at hev
            simp only [List.mem_cons, List.not_mem_nil, or_false] at hev
            rcases hev with rfl | rfl | rfl <;>
              exact ⟨fun p hc => Event.noConfusion hc, fun p hc => Event.noConfusion hc⟩
        · rw [if_neg hok] at hev
          simp at hev

theorem tryProcess_att_no_note_events {env : Env} {target : Str}
    {ids : List (Str × NotionFileInfo)} {atts : List (Str × NotionAttachmentInfo)}
    {e : ZipEntryFile} (hext : ¬ (e.extension = htmlExt)) :
    ∀ ev ∈ (tryProcessEntry env target ids atts e).1,
      (∀ p b, ev ≠ Event.writeNote p b) ∧ (∀ p, ev ≠ Event.editFrontMatter p) ∧
        (∀ p, ev ≠ Event.reportNoteSuccess p) := by
  intro ev hev
  unfold tryProcessEntry at hev
  rw [if_neg hext] at hev
  cases hlook : lookupA e.filepath atts with
  | none => rw [hlook] at hev; simp at hev
  | some a =>
    rw [hlook] at hev
    dsimp only at hev
    by_cases hok : env.writeBinOk (attPath a) = true
    · rw [if_pos hok] at hev
      simp only [List.mem_cons, List.not_mem_nil, or_false] at hev
      rcases hev with rfl | rfl <;>
        exact ⟨fun p b hc => Event.noConfusion hc, fun p hc => Event.noConfusion hc,
          fun p hc => Event.noConfusion hc⟩
    · rw [if_neg hok] at hev
      simp at hev

theorem tryProcess_writeBinary {env : Env} {target : Str}
    {ids : List (Str × NotionFileInfo)} {atts : List (Str × NotionAttachmentInfo)}
    {e : ZipEntryFile} {p : Str}
    (h : Event.writeBinary p ∈ (tryProcessEntry env target ids atts e).1) :
    ∃ a, lookupA e.filepath atts = some a ∧ p = attPath a := by
  by_cases hext : e.extension = htmlExt
  · exact absurd rfl ((tryProcess_html_no_att_events hext _ h).1 p)
  · unfold tryProcessEntry at h
    rw [if_neg hext] at h
    cases hlook : lookupA e.filepath atts with
    | none => rw [hlook] at h; simp at h
    | some a =>
      rw [hlook] at h
      dsimp only at h
      by_cases hok : env.writeBinOk (attPath a) = true
      · rw [if_pos hok] at h
        simp only [List.mem_cons, List.not_mem_nil, or_false] at h
        rcases h with h | h
        · exact ⟨a, rfl, (Event.writeBinary.injEq _ _ ▸ h)⟩
        · cases h
      · rw [if_neg hok] at h
        simp at h

theorem entryBlock_no_notice (env : Env) (target : Str)
    (ids : List (Str × NotionFileInfo)) (atts : List (Str × NotionAttachmentInfo))
    (total idx : Nat) (e : ZipEntryFile) :
    ∀ m, Event.notice m ∉ entryBlock env target ids atts total idx e := by
  intro m hev
  rw [entryBlock_eq] at hev
  rcases List.mem_cons.mp hev with hev | hev
  · cases hev
  · rcases List.mem_append.mp hev with hev | hev
    · exact absurd rfl
        ((content_classify (tryProcess_content env target ids atts e _ hev)).2.2.2.1 m)
    · cases h2 : (tryProcessEntry env target ids atts e).2 with
      | none => rw [h2] at hev; cases hev
      | some err =>
        rw [h2] at hev
        rcases List.mem_cons.mp hev with hev | hev
        · cases hev
        · cases hev

theorem mem_pass2Trace {env : Env} {target : Str} {ids : List (Str × NotionFileInfo)}
    {atts : List (Str × NotionAttachmentInfo)} {total : Nat} {files : List ZipFile}
    {ev : Event} :
    ev ∈ pass2Trace env target ids atts total files ↔
      ∃ ie ∈ (processedEntries files).enum,
        ev ∈ entryBlock env target ids atts total ie.1 ie.2 := by
  unfold pass2Trace
  constructor
  · intro h
    obtain ⟨l, hl, hev⟩ := List.mem_flatten.mp h
    obtain ⟨ie, hie, rfl⟩ := List.mem_map.mp hl
    exact ⟨ie, hie, hev⟩
  · rintro ⟨ie, hie, hev⟩
    exact List.mem_flatten.mpr ⟨_, List.mem_map.mpr ⟨ie, hie, rfl⟩, hev⟩

theorem scanTrace_events (cfg : ImportConfig) :
    ∀ ev ∈ scanTrace cfg, ∃ p, ev = Event.reportSkipped p := by
  intro ev hev
  obtain ⟨p, _, rfl⟩ := List.mem_map.mp hev
  exact ⟨p, rfl⟩

theorem folderTrace_events (cfg : ImportConfig) (f : Str) :
    ∀ ev ∈ folderTrace cfg f, ∃ p, ev = Event.createFolder p := by
  intro ev hev
  obtain ⟨p, _, rfl⟩ := List.mem_map.mp hev
  exact ⟨p, rfl⟩

theorem createdFolders_append (a b : List Event) :
    createdFolders (a ++ b) = createdFolders a ++ createdFolders b := by
  unfold createdFolders
  exact List.filterMap_append a b _

theorem createdFolders_map_create (l : List Str) :
    createdFolders (l.map Event.createFolder) = l := by
  induction l with
  | nil => rfl
  | cons x xs ih =>
    unfold createdFolders at ih ⊢
    rw [List.map_cons, List.filterMap_cons]
    dsimp only
    rw [ih]

theorem createdFolders_nil_of {tr : List Event}
    (h : ∀ ev ∈ tr, isCreateEvent ev = false) : createdFolders tr = [] := by
  induction tr with
  | nil => rfl
  | cons ev tr ih =>
    have htail := ih (fun x hx => h x (by simp [hx]))
    have hev := h ev (by simp)
    cases ev <;> first | exact htail | exact Bool.noConfusion hev

theorem mem_flatFolderPaths {target : Str} {ids : List (Str × NotionFileInfo)}
    {atts : List (Str × NotionAttachmentInfo)} {p : Str} :
    p ∈ flatFolderPaths target ids atts ↔
      p = target ∨ p ∈ docFolderPathsList target ids ++
        atts.map (fun pa => pa.2.targetParentFolder) := by
  unfold flatFolderPaths
  rw [mem_foldl_setInsert, List.mem_singleton]

theorem target_mem_flatFolderPaths {target : Str} {ids : List (Str × NotionFileInfo)}
    {atts : List (Str × NotionAttachmentInfo)} :
    target ∈ flatFolderPaths target ids atts := by
  rw [mem_flatFolderPaths]
  exact Or.inl rfl

theorem docFolderPaths_eq_parentDirs {target : Str} {ids : List (Str × NotionFileInfo)}
    (ht : EndsSlash target) (hsl : ∀ kv ∈ ids, '/' ∉ kv.2.title) :
    docFolderPathsList target ids = (docPathsList target ids).map parentDir := by
  unfold docFolderPathsList docPathsList
  rw [List.map_map]
  apply List.map_congr_left
  intro kv hkv
  show target ++ (assembleParentIds kv.2 ids).flatten = parentDir (docPath target ids kv.2)
  have hN : '/' ∉ kv.2.title ++ mdExt := by
    intro hx
    rcases List.mem_append.mp hx with hx | hx
    · exact hsl kv hkv hx
    · exact slash_not_mem_mdExt hx
  have : docPath target ids kv.2 =
      (target ++ (assembleParentIds kv.2 ids).flatten) ++ (kv.2.title ++ mdExt) := by
    unfold docPath
    simp [List.append_assoc]
  rw [this, parentDir_append (docFolder_ends_slash ht ids kv.2) hN]

theorem attFolders_eq_parentDirs {atts : List (Str × NotionAttachmentInfo)}
    (hf : ∀ pa ∈ atts, EndsSlash pa.2.targetParentFolder)
    (hn : ∀ pa ∈ atts, '/' ∉ pa.2.nameWithExtension) :
    atts.map (fun pa => pa.2.targetParentFolder) =
      (atts.map (fun pa => attPath pa.2)).map parentDir := by
  rw [List.map_map]
  apply List.map_congr_left
  intro pa hpa
  show pa.2.targetParentFolder = parentDir (attPath pa.2)
  rw [attPath, parentDir_append (hf pa hpa) (hn pa hpa)]

/-! ### The ancestor walk visits every id at most once -/

theorem ancestorIdChain_nodup_aux (docs : List (Str × NotionFileInfo)) :
    ∀ (fuel : Nat) (visited : List Str) (op : Option Str),
      (ancestorIdChain docs fuel visited op).Nodup ∧
        ∀ x ∈ ancestorIdChain docs fuel visited op,
          x ∉ visited ∧ ∃ v, lookupA x docs = some v := by
  intro fuel
  induction fuel with
  | zero =>
    intro visited op
    exact ⟨List.nodup_nil, fun x hx => absurd hx (List.not_mem_nil x)⟩
  | succ fuel ih =>
    intro visited op
    cases op with
    | none =>
      exact ⟨List.nodup_nil, fun x hx => absurd hx (List.not_mem_nil x)⟩
    | some pid =>
      show (if pid ∈ visited then [] else
          match lookupA pid docs with
          | none => []
          | some info =>
            ancestorIdChain docs fuel (pid :: visited) info.parentId ++ [pid]).Nodup ∧
        ∀ x ∈ (if pid ∈ visited then [] else
          match lookupA pid docs with
          | none => []
          | some info =>
            ancestorIdChain docs fuel (pid :: visited) info.parentId ++ [pid]),
          x ∉ visited ∧ ∃ v, lookupA x docs = some v
      by_cases hv : pid ∈ visited
      · rw [if_pos hv]
        exact ⟨List.nodup_nil, fun x hx => absurd hx (List.not_mem_nil x)⟩
      · rw [if_neg hv]
        cases hl : lookupA pid docs with
        | none =>
          exact ⟨List.nodup_nil, fun x hx => absurd hx (List.not_mem_nil x)⟩
        | some info =>
          obtain ⟨hnd, hmem⟩ := ih (pid :: visited) info.parentId
          constructor
          · rw [List.nodup_append]
            refine ⟨hnd, List.nodup_singleton pid, ?_⟩
            intro x hx hx2
            have := (hmem x hx).1
            rw [List.mem_singleton.mp hx2] at this
            exact this (by simp)
          · intro x hx
            rcases List.mem_append.mp hx with hx | hx
            · obtain ⟨h1, h2⟩ := hmem x hx
              exact ⟨fun hc => h1 (by simp [hc]), h2⟩
            · rw [List.mem_singleton.mp hx]
              exact ⟨hv, info, hl⟩

/-! ### The claims -/

/-- C1: in every completed import run over a well-formed archive, the
destination paths assigned by the planner to documents (target folder +
joined ancestor segments + title + `.md`) and attachments (target parent
folder + name with extension) are pairwise distinct. -/
theorem c1_planned_paths_pairwise_distinct (cfg : ImportConfig) (f : Str)
    (hwf : WellFormedCfg cfg) : (plannedPathsList cfg f).Nodup := by
  obtain ⟨hi, ha⟩ := scanResult_inv hwf
  have hcc := cleanIds_no_collision hi
  unfold plannedPathsList
  rw [List.nodup_append]
  refine ⟨?_, ?_, ?_⟩
  · show (docPathsList (targetOf f) (cleanIds (scanResult cfg.files).ids)).Nodup
    exact docPathsList_nodup (ensureSlash_ends f) hcc.1 hcc.2.1 hcc.2.2.2
  · show ((cleanedAtts (cleanArgsOf cfg f) (scanResult cfg.files).ids
      (scanResult cfg.files).atts).map (fun pa => attPath pa.2)).Nodup
    exact (cleanedAtts_spec _ _ _).2
  · intro a hdoc hatt
    obtain ⟨pa, hpa, hq⟩ := List.mem_map.mp hatt
    exact (cleanedAtts_spec (cleanArgsOf cfg f) (scanResult cfg.files).ids
      (scanResult cfg.files).atts).1 pa hpa (hq ▸ hdoc)

theorem c1_witness :
    WellFormedCfg wCfg ∧ (plannedPathsList wCfg "Notion".data).Nodup :=
  ⟨by unfold WellFormedCfg; decide,
   c1_planned_paths_pairwise_distinct wCfg "Notion".data (by unfold WellFormedCfg; decide)⟩

/-- C2: for every id-to-document mapping — including mappings whose
parent-id pointers form a cycle — `assembleParentIds` maps the ancestor id
chain to folder segments, the chain never contains an id twice (and every
chain id resolves in the mapping, so the walk is a finite non-looping prefix
of the ancestor relation); on the concrete cycle A→B→A the walk terminates
with the segments `A/`, `B/`. -/
theorem c2_assembleParentIds_no_repeat :
    (∀ (docs : List (Str × NotionFileInfo)) (info : NotionFileInfo),
      assembleParentIds info docs =
        (ancestorIdChain docs (docs.length + 1) [] info.parentId).map (segOf docs) ∧
      (ancestorIdChain docs (docs.length + 1) [] info.parentId).Nodup ∧
      ∀ x ∈ ancestorIdChain docs (docs.length + 1) [] info.parentId,
        ∃ v, lookupA x docs = some v) ∧
    assembleParentIds wInfoA wCycDocs = ["A/".data, "B/".data] := by
  constructor
  · intro docs info
    obtain ⟨hnd, hmem⟩ := ancestorIdChain_nodup_aux docs (docs.length + 1) [] info.parentId
    exact ⟨rfl, hnd, fun x hx => (hmem x hx).2⟩
  · decide

theorem c2_witness :
    ∃ v, lookupA "ka".data wCycDocs = some v :=
  (c2_assembleParentIds_no_repeat.1 wCycDocs wInfoA).2.2 "ka".data (by decide)

/-- C3: duplicate resolution is idempotent — on mappings satisfying the
scanner's invariants (unique 32-character hexadecimal ids, separator-free
titles), running `cleanDuplicates` on its own output changes neither
mapping. -/
theorem c3_cleanDuplicates_idempotent (args : CleanArgs)
    (ids : List (Str × NotionFileInfo)) (atts : List (Str × NotionAttachmentInfo))
    (hinv : IdsInv ids) :
    cleanDuplicates args (cleanDuplicates args ids atts).1
      (cleanDuplicates args ids atts).2 = cleanDuplicates args ids atts :=
  cleanDuplicates_idem args atts hinv

theorem c3_witness :
    IdsInv wDupIds ∧
      cleanDuplicates wArgs (cleanDuplicates wArgs wDupIds wDupAtts).1
        (cleanDuplicates wArgs wDupIds wDupAtts).2 =
        cleanDuplicates wArgs wDupIds wDupAtts :=
  ⟨by unfold IdsInv IdKeyShape; decide,
   c3_cleanDuplicates_idempotent wArgs wDupIds wDupAtts (by unfold IdsInv IdKeyShape; decide)⟩

/-- C4 (counterexample): in the run over an archive with no entries the
target folder is passed to `createFolders`, yet no document or attachment
destination path exists, so the created set is not equal to the set of
distinct parent folders of the final destination paths. -/
theorem c4_counterexample :
    Event.createFolder "Notion/".data ∈ runImport wEnv wCfgEmptyZip ∧
      plannedParentDirs wCfgEmptyZip "Notion".data = [] := by decide

/-- C4 (amended): the set of folders passed to `createFolders` equals the
target folder together with the distinct parent folders of all planned
document and attachment destination paths, and every `createFolders` call
precedes Pass 2, which contains every write of the run. -/
theorem c4_folders_amended (env : Env) (cfg : ImportConfig) (f : Str)
    (h1 : cfg.files ≠ []) (h2 : cfg.outputFolder = some f) (hwf : WellFormedCfg cfg) :
    (∀ p, p ∈ createdFolders (runImport env cfg) ↔
        p = targetOf f ∨ p ∈ plannedParentDirs cfg f) ∧
    runImport env cfg = scanTrace cfg ++ folderTrace cfg f ++ pass2TraceOf env cfg f ∧
    (∀ ev ∈ scanTrace cfg ++ folderTrace cfg f, isWriteEvent ev = false) ∧
    (∀ ev ∈ pass2TraceOf env cfg f, isCreateEvent ev = false) := by
  obtain ⟨hi, ha⟩ := scanResult_inv hwf
  have hcc := cleanIds_no_collision hi
  have hpass2create : ∀ ev ∈ pass2TraceOf env cfg f, isCreateEvent ev = false := by
    intro ev hev
    obtain ⟨ie, _, hblock⟩ := mem_pass2Trace.mp hev
    exact entryBlock_no_create _ _ _ _ _ _ _ ev hblock
  refine ⟨?_, runImport_eq env cfg f h1 h2, ?_, hpass2create⟩
  · intro p
    have hscan : createdFolders (scanTrace cfg) = [] := by
      refine createdFolders_nil_of ?_
      intro ev hev
      obtain ⟨q, rfl⟩ := scanTrace_events cfg ev hev
      rfl
    have hpass : createdFolders (pass2TraceOf env cfg f) = [] :=
      createdFolders_nil_of hpass2create
    have hmid : createdFolders (folderTrace cfg f) =
        flatFolderPaths (targetOf f) (plannedOf cfg f).1 (plannedOf cfg f).2 :=
      createdFolders_map_create _
    have hflat : createdFolders (runImport env cfg) =
        flatFolderPaths (targetOf f) (plannedOf cfg f).1 (plannedOf cfg f).2 := by
      rw [runImport_eq env cfg f h1 h2, createdFolders_append, createdFolders_append,
        hscan, hpass, hmid]
      simp
    rw [hflat, mem_flatFolderPaths]
    have hdirs : docFolderPathsList (targetOf f) (plannedOf cfg f).1 ++
        (plannedOf cfg f).2.map (fun pa => pa.2.targetParentFolder) =
        plannedParentDirs cfg f := by
      unfold plannedParentDirs plannedPathsList
      rw [List.map_append]
      congr 1
      · exact docFolderPaths_eq_parentDirs (ensureSlash_ends f) hcc.2.2.2
      · refine attFolders_eq_parentDirs ?_ ?_
        · intro pa hpa
          have h3 := cleanedAtts_folder pa hpa
          rw [h3]
          exact folderFor_ends_slash (ensureSlash_ends f) _ _
        · exact cleanedAtts_inv ha
    rw [hdirs]
  · intro ev hev
    rcases List.mem_append.mp hev with hev | hev
    · obtain ⟨q, rfl⟩ := scanTrace_events cfg ev hev
      rfl
    · obtain ⟨q, rfl⟩ := folderTrace_events cfg f ev hev
      rfl

theorem c4_witness :
    wCfg.files ≠ [] ∧ WellFormedCfg wCfg ∧
      (∀ p, p ∈ createdFolders (runImport wEnv wCfg) ↔
          p = targetOf "Notion".data ∨ p ∈ plannedParentDirs wCfg "Notion".data) :=
  ⟨by decide, by unfold WellFormedCfg; decide,
   (c4_folders_amended wEnv wCfg "Notion".data (by decide) rfl
     (by unfold WellFormedCfg; decide)).1⟩

/-- C5: every document body written in Pass 2 is written at the path built
from the target root folder (carrying its trailing slash), the document's
joined ancestor segments in root-to-parent order, its title, and `.md` —
that is, at `docPath` of its planned file info. -/
theorem c5_document_destination (env : Env) (cfg : ImportConfig) (p b : Str)
    (hp : Event.writeNote p b ∈ runImport env cfg) :
    ∃ f, cfg.outputFolder = some f ∧ EndsSlash (targetOf f) ∧
      ∃ id info, lookupA id (plannedOf cfg f).1 = some info ∧
        p = docPath (targetOf f) (plannedOf cfg f).1 info := by
  rcases hcfg : cfg.outputFolder with _ | f
  · exfalso
    unfold runImport at hp
    by_cases hfe : cfg.files.isEmpty = true
    · rw [if_pos hfe] at hp
      rcases List.mem_cons.mp hp with h | h
      · cases h
      · cases h
    · rw [if_neg hfe, hcfg] at hp
      rcases List.mem_cons.mp hp with h | h
      · cases h
      · cases h
  · by_cases hfe : cfg.files = []
    · exfalso
      unfold runImport at hp
      rw [if_pos (by simp [hfe])] at hp
      rcases List.mem_cons.mp hp with h | h
      · cases h
      · cases h
    · rw [runImport_eq env cfg f hfe hcfg] at hp
      refine ⟨f, rfl, ensureSlash_ends f, ?_⟩
      rcases List.mem_append.mp hp with hp | hp
      · rcases List.mem_append.mp hp with hp | hp
        · obtain ⟨q, hq⟩ := scanTrace_events cfg _ hp
          cases hq
        · obtain ⟨q, hq⟩ := folderTrace_events cfg f _ hp
          cases hq
      · obtain ⟨ie, _, hblock⟩ := mem_pass2Trace.mp hp
        rcases mem_entryBlock_cases hblock with h | h | h
        · cases h
        · obtain ⟨id, info, _, hlook, hpath⟩ := tryProcess_writeNote h
          exact ⟨id, info, hlook, hpath⟩
        · obtain ⟨err, _, h⟩ := h
          cases h

theorem c5_witness :
    Event.writeNote "Notion/Root.md".data "B!".data ∈ runImport wEnv wCfg ∧
      ∃ f, wCfg.outputFolder = some f ∧ EndsSlash (targetOf f) ∧
        ∃ id info, lookupA id (plannedOf wCfg f).1 = some info ∧
          "Notion/Root.md".data = docPath (targetOf f) (plannedOf wCfg f).1 info :=
  ⟨by decide,
   c5_document_destination wEnv wCfg "Notion/Root.md".data "B!".data (by decide)⟩

/-- C6: in Pass 2 the trace is exactly the concatenation of every processed
entry's block; an entry whose processing throws contributes exactly one
`reportFailed` event, carrying the entry's archive path and the causing
error, an entry whose processing succeeds contributes none, and every entry
— whatever happened to the entries before it — contributes its block,
opened by its progress report. -/
theorem c6_per_entry_failure (env : Env) (target : Str)
    (ids : List (Str × NotionFileInfo)) (atts : List (Str × NotionAttachmentInfo))
    (total : Nat) (files : List ZipFile) :
    pass2Trace env target ids atts total files =
      ((processedEntries files).enum.map
        (fun ie => entryBlock env target ids atts total ie.1 ie.2)).flatten ∧
    ∀ ie ∈ (processedEntries files).enum,
      (∀ err, (tryProcessEntry env target ids atts ie.2).2 = some err →
        (entryBlock env target ids atts total ie.1 ie.2).countP isFailedEvent = 1 ∧
          Event.reportFailed ie.2.filepath err ∈
            entryBlock env target ids atts total ie.1 ie.2) ∧
      ((tryProcessEntry env target ids atts ie.2).2 = none →
        (entryBlock env target ids atts total ie.1 ie.2).countP isFailedEvent = 0) ∧
      Event.reportProgress (ie.1 + 1) total ∈
        entryBlock env target ids atts total ie.1 ie.2 := by
  refine ⟨rfl, ?_⟩
  intro ie _
  refine ⟨?_, ?_, ?_⟩
  · intro err herr
    refine ⟨?_, entryBlock_failed_mem env target ids atts total ie.1 ie.2 herr⟩
    rw [entryBlock_countFailed, herr]
    rfl
  · intro hnone
    rw [entryBlock_countFailed, hnone]
    rfl
  · rw [entryBlock_eq]
    exact List.mem_cons_self _ _

theorem c6_witness :
    (tryProcessEntry wEnvFail (targetOf "Notion".data) (plannedOf wCfg "Notion".data).1
        (plannedOf wCfg "Notion".data).2 wEntryChild).2 = some "conversion failed".data ∧
      (entryBlock wEnvFail (targetOf "Notion".data) (plannedOf wCfg "Notion".data).1
        (plannedOf wCfg "Notion".data).2 (totalOf wCfg) 1 wEntryChild).countP
          isFailedEvent = 1 :=
  ⟨by decide,
   (((c6_per_entry_failure wEnvFail (targetOf "Notion".data)
       (plannedOf wCfg "Notion".data).1 (plannedOf wCfg "Notion".data).2
       (totalOf wCfg) wCfg.files).2 (1, wEntryChild) (by decide)).1
     "conversion failed".data (by decide)).1⟩

/-- C7: the run halts with only a user notice exactly when no file is
selected or no output folder resolves; otherwise no notice is shown and the
run proceeds (no trace that is a single notice), with nothing read or
written in the halting cases since the notice is the entire trace. -/
theorem c7_preflight (env : Env) (cfg : ImportConfig) :
    ((cfg.files = [] ∨ cfg.outputFolder = none) ↔
      ∃ m, runImport env cfg = [Event.notice m]) ∧
    (¬ (cfg.files = [] ∨ cfg.outputFolder = none) →
      ∀ m, Event.notice m ∉ runImport env cfg) := by
  have hproceed : ∀ f, cfg.files ≠ [] → cfg.outputFolder = some f →
      ∀ m, Event.notice m ∉ runImport env cfg := by
    intro f h1 h2 m hm
    rw [runImport_eq env cfg f h1 h2] at hm
    rcases List.mem_append.mp hm with hm | hm
    · rcases List.mem_append.mp hm with hm | hm
      · obtain ⟨q, hq⟩ := scanTrace_events cfg _ hm
        cases hq
      · obtain ⟨q, hq⟩ := folderTrace_events cfg f _ hm
        cases hq
    · obtain ⟨ie, _, hblock⟩ := mem_pass2Trace.mp hm
      exact entryBlock_no_notice _ _ _ _ _ _ _ m hblock
  constructor
  · constructor
    · rintro (h | h)
      · exact ⟨noticePick, by unfold runImport; rw [if_pos (by simp [h])]⟩
      · by_cases hfe : cfg.files = []
        · exact ⟨noticePick, by unfold runImport; rw [if_pos (by simp [hfe])]⟩
        · refine ⟨noticeSelect, ?_⟩
          unfold runImport
          rw [if_neg (by simpa using hfe), h]
    · rintro ⟨m, hm⟩
      by_cases hfe : cfg.files = []
      · exact Or.inl hfe
      · rcases hout : cfg.outputFolder with _ | f
        · exact Or.inr rfl
        · exfalso
          have hmem : Event.createFolder (targetOf f) ∈ runImport env cfg := by
            rw [runImport_eq env cfg f hfe hout]
            refine List.mem_append.mpr (Or.inl (List.mem_append.mpr (Or.inr ?_)))
            exact List.mem_map.mpr ⟨targetOf f, target_mem_flatFolderPaths, rfl⟩
          rw [hm] at hmem
          rcases List.mem_cons.mp hmem with h | h
          · cases h
          · cases h
  · intro hnot m
    rcases hout : cfg.outputFolder with _ | f
    · exact absurd (Or.inr hout) hnot
    · exact hproceed f (fun hc => hnot (Or.inl hc)) hout m

theorem c7_witness :
    ∃ m, runImport wEnv wCfgNoFiles = [Event.notice m] :=
  (c7_preflight wEnv wCfgNoFiles).1.mp (Or.inl rfl)

/-- C8: in both passes the per-entry callback is invoked on an archive entry
exactly when the entry is not a database export, and an entry is a database
export exactly when its filepath ends in `.csv` and a Notion id is
extractable from the filepath; in particular an entry with no extractable id
that is not such a CSV is passed through. -/
theorem c8_database_csv_skip (files : List ZipFile) (e : ZipEntryFile) :
    (e ∈ processedEntries files ↔
      e ∈ allEntries files ∧
        ¬ (['.', 'c', 's', 'v'].isSuffixOf e.filepath = true ∧
            (getNotionId e.filepath).isSome = true)) ∧
    (isDatabaseCSV e.filepath = true ↔
      ['.', 'c', 's', 'v'].isSuffixOf e.filepath = true ∧
        (getNotionId e.filepath).isSome = true) := by
  have hdb : ∀ s, isDatabaseCSV s = true ↔
      (['.', 'c', 's', 'v'].isSuffixOf s = true ∧ (getNotionId s).isSome = true) := by
    intro s
    unfold isDatabaseCSV
    rw [Bool.and_eq_true]
  constructor
  · unfold processedEntries
    rw [List.mem_filter]
    constructor
    · rintro ⟨hmem, hskip⟩
      refine ⟨hmem, fun hc => ?_⟩
      rw [(hdb e.filepath).mpr hc] at hskip
      exact Bool.noConfusion hskip
    · rintro ⟨hmem, hno⟩
      refine ⟨hmem, ?_⟩
      cases hD : isDatabaseCSV e.filepath
      · rfl
      · exact absurd ((hdb e.filepath).mp hD) hno
  · exact hdb e.filepath

theorem c8_witness :
    wEntryImg ∈ processedEntries wCfg.files :=
  (c8_database_csv_skip wCfg.files wEntryImg).1.mpr ⟨by decide, by decide⟩

/-- C9: Pass 2 treats an entry as a document exactly when its extension is
`html`: a document entry never produces attachment events, a non-`html`
entry never produces note events and any binary it writes comes from looking
its archive filepath up in the attachment mapping, and an `html` entry whose
name yields no id, or whose id has no file info, yields a block consisting
of its progress report and a single failure report — it is never written as
an attachment. -/
theorem c9_document_iff_html (env : Env) (target : Str)
    (ids : List (Str × NotionFileInfo)) (atts : List (Str × NotionAttachmentInfo))
    (total idx : Nat) (e : ZipEntryFile) :
    (e.extension = htmlExt →
      (∀ p, Event.writeBinary p ∉ entryBlock env target ids atts total idx e) ∧
      ∀ p, Event.reportAttachmentSuccess p ∉
        entryBlock env target ids atts total idx e) ∧
    (¬ (e.extension = htmlExt) →
      (∀ p b, Event.writeNote p b ∉ entryBlock env target ids atts total idx e) ∧
      ∀ p, Event.writeBinary p ∈ entryBlock env target ids atts total idx e →
        ∃ a, lookupA e.filepath atts = some a ∧ p = attPath a) ∧
    (e.extension = htmlExt →
      (getNotionId e.name = none ∨
        ∃ id, getNotionId e.name = some id ∧ lookupA id ids = none) →
      ∃ err, entryBlock env target ids atts total idx e =
        [Event.reportProgress (idx + 1) total,
          Event.reportFailed e.filepath err]) := by
  refine ⟨?_, ?_, ?_⟩
  · intro hext
    constructor
    · intro p hmem
      rcases mem_entryBlock_cases hmem with h | h | h
      · cases h
      · exact (tryProcess_html_no_att_events hext _ h).1 p rfl
      · obtain ⟨err, _, h⟩ := h
        cases h
    · intro p hmem
      rcases mem_entryBlock_cases hmem with h | h | h
      · cases h
      · exact (tryProcess_html_no_att_events hext _ h).2 p rfl
      · obtain ⟨err, _, h⟩ := h
        cases h
  · intro hext
    constructor
    · intro p b hmem
      rcases mem_entryBlock_cases hmem with h | h | h
      · cases h
      · exact (tryProcess_att_no_note_events hext _ h).1 p b rfl
      · obtain ⟨err, _, h⟩ := h
        cases h
    · intro p hmem
      rcases mem_entryBlock_cases hmem with h | h | h
      · cases h
      · exact tryProcess_writeBinary h
      · obtain ⟨err, _, h⟩ := h
        cases h
  · intro hext hbad
    rcases hbad with hid | ⟨id, hid, hlookn⟩
    · refine ⟨"ids not found for ".data ++ e.filepath, ?_⟩
      rw [entryBlock_eq, tryProcess_html_noId hext hid]
      rfl
    · refine ⟨"file info not found for ".data ++ e.filepath, ?_⟩
      rw [entryBlock_eq, tryProcess_html_noInfo hext hid hlookn]
      rfl

theorem c9_witness :
    ∃ err, entryBlock wEnv "Notion/".data [] [] 3 0 wEntryBadHtml =
      [Event.reportProgress 1 3, Event.reportFailed wEntryBadHtml.filepath err] :=
  (c9_document_iff_html wEnv "Notion/".data [] [] 3 0 wEntryBadHtml).2.2 rfl
    (Or.inl (by decide))

/-- C10: Pass 2 reports progress exactly once per processed entry, at the
head of the entry's block, with `current` the running count of processed
entries and `total` the number of document ids plus attachment paths counted
after scanning and before duplicate resolution; on an archive whose two
entries share one document id, the reported `current` exceeds `total`. -/
theorem c10_progress_reporting (env : Env) (cfg : ImportConfig) (f : Str)
    (h1 : cfg.files ≠ []) (h2 : cfg.outputFolder = some f) :
    runImport env cfg = scanTrace cfg ++ folderTrace cfg f ++
      pass2Trace env (targetOf f) (plannedOf cfg f).1 (plannedOf cfg f).2
        ((scanResult cfg.files).ids.length + (scanResult cfg.files).atts.length)
        cfg.files ∧
    (∀ ie ∈ (processedEntries cfg.files).enum,
      (entryBlock env (targetOf f) (plannedOf cfg f).1 (plannedOf cfg f).2
          (totalOf cfg) ie.1 ie.2).countP isProgressEvent = 1 ∧
      ∃ rest, entryBlock env (targetOf f) (plannedOf cfg f).1 (plannedOf cfg f).2
          (totalOf cfg) ie.1 ie.2 =
        Event.reportProgress (ie.1 + 1) (totalOf cfg) :: rest) ∧
    Event.reportProgress 2 1 ∈ runImport wEnv wCfgDup := by
  refine ⟨runImport_eq env cfg f h1 h2, ?_, by decide⟩
  intro ie _
  exact ⟨entryBlock_countProgress env (targetOf f) (plannedOf cfg f).1
      (plannedOf cfg f).2 (totalOf cfg) ie.1 ie.2,
    ⟨_, entryBlock_eq env (targetOf f) (plannedOf cfg f).1 (plannedOf cfg f).2
      (totalOf cfg) ie.1 ie.2⟩⟩

theorem c10_witness :
    Event.reportProgress 2 1 ∈ runImport wEnv wCfgDup :=
  (c10_progress_reporting wEnv wCfgDup "Notion".data (by decide) rfl).2.2

end NotionImport
